import Mathlib

/-!
Shallow embedding of the swollencandle library (src/include/swollencandle/swollencandle.hpp)
and of the cosevalues row codec it uses (src/thirdparty/include/cosevalues/cosevalues.hpp).

Modelling conventions:
* C++ unsigned integers are Nat; the width checks that `std::from_chars` performs
  (value must fit in uint64_t / uint32_t) are explicit `< 2^64` / `< 2^32` tests.
* C++ `double` fields of `candle` / `trade` are a type parameter `D`.  For the
  aggregation functions `D` carries a `LinearOrderedField` structure (exact
  arithmetic stands in for IEEE arithmetic; the claims settled about those
  functions concern element counts, grouping, error paths and buffer reuse,
  none of which depend on rounding).  For the codec, formatting and parsing of
  `D` are explicit function parameters `fmt`/`parseD`, with the properties that
  the C++ standard guarantees for `std::to_chars`/`std::from_chars` on doubles
  (shortest round-trippable form) taken as hypotheses where a theorem needs them.
* Text buffers are `List Char`.  The C++ code scans a NUL-terminated buffer;
  end-of-buffer is the empty list, and an embedded '\x00' character behaves like
  the terminator exactly where the C++ `switch` statements treat '\0' that way.
* `std::to_chars` into a too-small buffer fails and writes nothing; the bytes the
  writer keeps in that case are the '\x00' fill that `std::string::resize`
  produced in `writer::allocate`.  This is modelled by `List.replicate n '\x00'`.
* A `%` or `/` with zero right operand on integers is undefined behaviour in C++;
  the model makes that outcome explicit with the `CResult.ub` constructor.
-/

/-- Error enumeration of swollencandle (swollencandle.hpp, `enum class error`). -/
inductive error where
  | ok
  | non_constant_period
  | invalid_upscale_period
  | merging_periods_mismatch
  | duplicated_candle
  | mismatched_candles
  | invalid_candle_fields
  | invalid_trade_fields
deriving DecidableEq, Repr

/-- Upscale period enumeration (swollencandle.hpp, `enum class upscale_period`). -/
inductive upscale_period where
  | minute
  | hour
  | day
  | month
  | year
deriving DecidableEq, Repr

/-- Number of seconds in each upscale period (swollencandle.hpp, `seconds_in`). -/
def seconds_in : upscale_period → Nat
  | .minute => 60
  | .hour => 3600
  | .day => 86400
  | .month => 2592000
  | .year => 31104000

/-- Candle record (swollencandle.hpp, `struct candle`).  `D` models `double`. -/
structure candle (D : Type) where
  time : Nat
  period : Nat
  count : Nat
  volume : D
  vwap_price : D
  open_price : D
  high_price : D
  low_price : D
  close_price : D
deriving DecidableEq, Repr

instance (D : Type) [Inhabited D] : Inhabited (candle D) :=
  ⟨⟨0, 0, 0, default, default, default, default, default, default⟩⟩

/-- Trade record (swollencandle.hpp, `struct trade`). -/
structure trade (D : Type) where
  time : Nat
  amount : D
  price : D
deriving DecidableEq, Repr

/-- Checkable candle invariants from spec section 3: `time` is a multiple of
`period`, `count >= 1`, `volume >= 0`, and `low_price <= open/close/high <= high_price`. -/
def candleInvariant {D : Type} [Zero D] [LE D] (c : candle D) : Prop :=
  c.period ∣ c.time ∧ 1 ≤ c.count ∧ (0 : D) ≤ c.volume ∧
    c.low_price ≤ c.open_price ∧ c.open_price ≤ c.high_price ∧
    c.low_price ≤ c.close_price ∧ c.close_price ≤ c.high_price ∧
    c.low_price ≤ c.high_price

instance {D : Type} [Zero D] [LE D] [DecidableEq Nat]
    [∀ x y : D, Decidable (x ≤ y)] (c : candle D) : Decidable (candleInvariant c) := by
  unfold candleInvariant; infer_instance

/-! ### Decimal digits (model of `std::to_chars` for unsigned integers) -/

/-- Character for a single decimal digit. -/
def digitChar : Nat → Char
  | 0 => '0'
  | 1 => '1'
  | 2 => '2'
  | 3 => '3'
  | 4 => '4'
  | 5 => '5'
  | 6 => '6'
  | 7 => '7'
  | 8 => '8'
  | _ => '9'

/-- Digit test over the code range '0'..'9' (the pattern `std::from_chars` accepts
for an unsigned integer). -/
def isDigitChar (c : Char) : Bool :=
  48 ≤ c.toNat && c.toNat ≤ 57

/-- Numeric value of a digit character. -/
def digitVal (c : Char) : Nat :=
  c.toNat - 48

/-- Big-endian decimal digit emission; the first argument is fuel that callers set
to `n + 1`, which always suffices since the quotient shrinks at every step. -/
def toDigitsAux : Nat → Nat → List Char → List Char
  | 0, _, acc => acc
  | fuel + 1, n, acc =>
    if n < 10 then digitChar n :: acc
    else toDigitsAux fuel (n / 10) (digitChar (n % 10) :: acc)

/-- Minimal decimal representation of a natural number, as `std::to_chars`
produces it for an unsigned integer that fits the supplied buffer. -/
def decimalChars (n : Nat) : List Char :=
  toDigitsAux (n + 1) n []

/-- Longest decimal-digit prefix of a character list, accumulating the value;
model of the digit-consuming loop inside `std::from_chars`. -/
def parseDigitsAcc (acc : Nat) : List Char → Nat × List Char
  | [] => (acc, [])
  | c :: cs =>
    if isDigitChar c then parseDigitsAcc (acc * 10 + digitVal c) cs
    else (acc, c :: cs)

/-- Model of the lexical phase of `std::from_chars` for an unsigned integer:
fails when the span does not start with a digit, otherwise consumes the longest
digit run and returns its value together with the unconsumed remainder. -/
def parseNat : List Char → Option (Nat × List Char)
  | [] => none
  | c :: cs =>
    if isDigitChar c then some (parseDigitsAcc 0 (c :: cs))
    else none

/-- Model of `row::try_parse` for `std::uint64_t` (cosevalues.hpp lines 219-222):
`std::from_chars` over the span, succeeding iff `ec == std::errc{}`; the pointer
to the first unconsumed character is ignored, so a valid numeric prefix is
accepted even when followed by junk, and only an absent digit prefix
(`invalid_argument`) or an out-of-range value (`result_out_of_range`) fail. -/
def try_parse_u64 (span : List Char) : Option Nat :=
  match parseNat span with
  | none => none
  | some (v, _) => if v < 2 ^ 64 then some v else none

/-- Model of `row::try_parse` for `std::uint32_t` (cosevalues.hpp lines 207-210). -/
def try_parse_u32 (span : List Char) : Option Nat :=
  match parseNat span with
  | none => none
  | some (v, _) => if v < 2 ^ 32 then some v else none

/-- Value of a big-endian digit list. -/
def bigVal (ds : List Nat) : Nat :=
  ds.foldl (fun a d => a * 10 + d) 0

/-! ### Character classes of the codec -/

/-- Whitespace skipped around fields (cosevalues.hpp `row::skip_whitespaces`). -/
def isWsChar (c : Char) : Bool :=
  c = ' ' || c = '\t' || c = '\r'

/-- Characters terminating a bare token (cosevalues.hpp `row::scan_token`). -/
def isTermChar (c : Char) : Bool :=
  c = '\t' || c = '\r' || c = '\n' || c = '\x00' || c = ','

/-- A character that a well-formed written numeric field may contain: it neither
terminates a token, nor is whitespace, nor is a quote. -/
def GoodChar (c : Char) : Prop :=
  isTermChar c = false ∧ isWsChar c = false ∧ c ≠ '"'

instance (c : Char) : Decidable (GoodChar c) := by
  unfold GoodChar; infer_instance

/-! ### Row codec: reader primitives (cosevalues.hpp, class `row` / `reader`) -/

/-- Model of `row::skip_whitespaces`: drop spaces, tabs and carriage returns. -/
def skip_whitespaces : List Char → List Char
  | [] => []
  | c :: r => if isWsChar c then skip_whitespaces r else c :: r

/-- Model of `row::skip_line`: consume up to and including the next newline;
stop without consuming at a NUL (the C++ loop returns at '\0' without advancing,
which at end-of-buffer means the terminator and mid-buffer an embedded NUL). -/
def skip_line : List Char → List Char
  | [] => []
  | c :: r => if c = '\n' then r else if c = '\x00' then c :: r else skip_line r

/-- Span scanned by `row::scan_token` (everything up to a token terminator). -/
def scan_token_span (cur : List Char) : List Char :=
  cur.takeWhile (fun c => !(isTermChar c))

/-- Cursor position after `row::scan_token`. -/
def scan_token_rest (cur : List Char) : List Char :=
  cur.dropWhile (fun c => !(isTermChar c))

/-- Model of `row::scan_quoted`, entered just after an opening quote: returns the
raw span (escapes kept) and the cursor standing on the closing quote, or `none`
on a newline, an embedded NUL, or end-of-buffer before the quote closes. -/
def scan_quoted : List Char → Option (List Char × List Char)
  | [] => none
  | [c] =>
    if c = '\n' then none
    else if c = '\x00' then none
    else if c = '"' then some ([], [c])
    else none
  | c :: c2 :: r =>
    if c = '\n' then none
    else if c = '\x00' then none
    else if c = '"' then
      if c2 = '"' then
        match scan_quoted r with
        | some (s, t) => some (c :: c2 :: s, t)
        | none => none
      else some ([], c :: c2 :: r)
    else
      match scan_quoted (c2 :: r) with
      | some (s, t) => some (c :: s, t)
      | none => none

/-- Model of `row::parse_arg` for a scalar whose span-level conversion is `tp`:
either a quoted field (span between the quotes, cursor moved past the closing
quote) or a bare token (empty token fails, conversion applied to the whole
scanned span). -/
def parse_arg {α : Type} (tp : List Char → Option α) (cur : List Char) :
    Option (α × List Char) :=
  match cur with
  | [] => none
  | c :: r =>
    if c = '"' then
      match scan_quoted r with
      | none => none
      | some (span, rest) =>
        match tp span with
        | none => none
        | some v => some (v, rest.drop 1)
    else
      let span := scan_token_span (c :: r)
      if span.isEmpty then none
      else
        match tp span with
        | none => none
        | some v => some (v, scan_token_rest (c :: r))

/-- Field separator step of `row::parse_args` (`I > 1`): skip whitespace, demand
a comma, skip whitespace after it. -/
def expect_comma (cur : List Char) : Option (List Char) :=
  match skip_whitespaces cur with
  | [] => none
  | c :: r => if c = ',' then some (skip_whitespaces r) else none

/-- Final step of `row::parse_args` (`I == 1`): skip whitespace, demand
end-of-line or end-of-buffer; the cursor is not advanced past it. -/
def expect_eol (cur : List Char) : Option (List Char) :=
  match skip_whitespaces cur with
  | [] => some []
  | c :: r => if c = '\n' then some (c :: r) else if c = '\x00' then some (c :: r) else none

/-- Model of `row::parse` instantiated at the candle schema used by
`swollencandle::read` (u64, u32, u64, then six doubles). -/
def parse_candle_row {D : Type} (parseD : List Char → Option D) (cur : List Char) :
    Option (candle D × List Char) :=
  match parse_arg try_parse_u64 cur with
  | none => none
  | some (time, c0) =>
  match expect_comma c0 with
  | none => none
  | some c1 =>
  match parse_arg try_parse_u32 c1 with
  | none => none
  | some (period, c2) =>
  match expect_comma c2 with
  | none => none
  | some c3 =>
  match parse_arg try_parse_u64 c3 with
  | none => none
  | some (count, c4) =>
  match expect_comma c4 with
  | none => none
  | some c5 =>
  match parse_arg parseD c5 with
  | none => none
  | some (volume, c6) =>
  match expect_comma c6 with
  | none => none
  | some c7 =>
  match parse_arg parseD c7 with
  | none => none
  | some (vwap, c8) =>
  match expect_comma c8 with
  | none => none
  | some c9 =>
  match parse_arg parseD c9 with
  | none => none
  | some (openp, c10) =>
  match expect_comma c10 with
  | none => none
  | some c11 =>
  match parse_arg parseD c11 with
  | none => none
  | some (high, c12) =>
  match expect_comma c12 with
  | none => none
  | some c13 =>
  match parse_arg parseD c13 with
  | none => none
  | some (low, c14) =>
  match expect_comma c14 with
  | none => none
  | some c15 =>
  match parse_arg parseD c15 with
  | none => none
  | some (close, c16) =>
  match expect_eol c16 with
  | none => none
  | some c17 =>
  some (⟨time, period, count, volume, vwap, openp, high, low, close⟩, c17)

/-- Model of `row::parse` instantiated at the trade schema used by
`swollencandle::read` for trades: `time, price, amount`. -/
def parse_trade_row {D : Type} (parseD : List Char → Option D) (cur : List Char) :
    Option (trade D × List Char) :=
  match parse_arg try_parse_u64 cur with
  | none => none
  | some (time, c0) =>
  match expect_comma c0 with
  | none => none
  | some c1 =>
  match parse_arg parseD c1 with
  | none => none
  | some (price, c2) =>
  match expect_comma c2 with
  | none => none
  | some c3 =>
  match parse_arg parseD c3 with
  | none => none
  | some (amount, c4) =>
  match expect_eol c4 with
  | none => none
  | some c5 =>
  some (⟨time, amount, price⟩, c5)

/-- Row loop of `swollencandle::read` for candles.  The `fuel` argument is an
upper bound on the number of iterations; callers pass `cursor length + 1`,
which always suffices because a successful row parse consumes at least one
character and advancing to the next row never moves backwards, so the
`error.ok` fuel-exhaustion marker is unreachable: any fuel of at least
`cursor length + 1` yields the same result (`read_candles_loop_fuel`). -/
def read_candles_loop {D : Type} (parseD : List Char → Option D) :
    Nat → List Char → List (candle D) → Option error × List (candle D)
  | 0, _, acc => (some error.ok, acc)
  | fuel + 1, cur, acc =>
    if cur.isEmpty then (none, acc)
    else
      match parse_candle_row parseD cur with
      | none => (some error.invalid_candle_fields, acc)
      | some (c, rest) =>
        read_candles_loop parseD fuel (skip_whitespaces (skip_line rest)) (acc ++ [c])

/-- Model of `swollencandle::read` for candles over an in-memory byte buffer
(the file collaborator is out of scope; `reader::from_string` provides the same
bytes).  The result pair models the `std::error_code` out-parameter plus the
caller-visible `candles` vector, which the function clears before parsing.
Rows are iterated with `reader::second_to_last_rows`, skipping the header row. -/
def read_candles {D : Type} (parseD : List Char → Option D) (text : List Char) :
    Option error × List (candle D) :=
  let cur0 := skip_whitespaces text
  if cur0.isEmpty then (none, [])
  else
    let cur1 := skip_whitespaces (skip_line cur0)
    read_candles_loop parseD (cur1.length + 1) cur1 []

/-- Row loop of `swollencandle::read` for trades; fuel discipline as in
`read_candles_loop`. -/
def read_trades_loop {D : Type} (parseD : List Char → Option D) :
    Nat → List Char → List (trade D) → Option error × List (trade D)
  | 0, _, acc => (some error.ok, acc)
  | fuel + 1, cur, acc =>
    if cur.isEmpty then (none, acc)
    else
      match parse_trade_row parseD cur with
      | none => (some error.invalid_trade_fields, acc)
      | some (t, rest) =>
        read_trades_loop parseD fuel (skip_whitespaces (skip_line rest)) (acc ++ [t])

/-- Model of `swollencandle::read` for trades (rows iterated with
`reader::first_to_last_rows`; no header row). -/
def read_trades {D : Type} (parseD : List Char → Option D) (text : List Char) :
    Option error × List (trade D) :=
  let cur0 := skip_whitespaces text
  read_trades_loop parseD (cur0.length + 1) cur0 []

/-! ### Row codec: writer (cosevalues.hpp, class `writer`) -/

/-- Model of `writer::format_arg(std::uint64_t)`: `std::to_chars` into an
18-byte slice freshly zero-filled by `writer::allocate`; on success exactly the
minimal decimal form is kept, on `value_too_large` nothing is written and the
18 NUL fill bytes stay in the buffer. -/
def format_u64 (n : Nat) : List Char :=
  if (decimalChars n).length ≤ 18 then decimalChars n else List.replicate 18 '\x00'

/-- Model of `writer::format_arg(std::uint32_t)` (10-byte slice). -/
def format_u32 (n : Nat) : List Char :=
  if (decimalChars n).length ≤ 10 then decimalChars n else List.replicate 10 '\x00'

/-- Model of `writer::format_arg(double)` (32-byte slice); `fmt` is the shortest
round-trippable `std::to_chars` rendering of the double. -/
def format_dbl {D : Type} (fmt : D → List Char) (x : D) : List Char :=
  if (fmt x).length ≤ 32 then fmt x else List.replicate 32 '\x00'

/-- Model of `writer::format_arg(char const (&)[N])`: the literal wrapped in
double quotes. -/
def quote_field (s : List Char) : List Char :=
  '"' :: (s ++ ['"'])

/-- Model of the `writer::format_args` recursion: fields joined by commas, the
row terminated by a single newline. -/
def join_row : List (List Char) → List Char
  | [] => ['\n']
  | [f] => f ++ ['\n']
  | f :: rest => f ++ ',' :: join_row rest

/-- Header row written by `swollencandle::write` for candles: nine string
literals, each of which `writer::format_arg` wraps in double quotes. -/
def header_row : List Char :=
  join_row (["time", "period", "trades", "volume", "vwap_price",
    "open_price", "high_price", "low_price", "close_price"].map
      (fun s => quote_field s.data))

/-- One candle row as `swollencandle::write` formats it. -/
def candle_row {D : Type} (fmt : D → List Char) (c : candle D) : List Char :=
  join_row [format_u64 c.time, format_u32 c.period, format_u64 c.count,
    format_dbl fmt c.volume, format_dbl fmt c.vwap_price, format_dbl fmt c.open_price,
    format_dbl fmt c.high_price, format_dbl fmt c.low_price, format_dbl fmt c.close_price]

/-- Model of `swollencandle::write` for candles: header row, then one row per
candle (the file sink is out of scope; these are the bytes handed to it). -/
def write_candles {D : Type} (fmt : D → List Char) (candles : List (candle D)) : List Char :=
  header_row ++ (candles.map (candle_row fmt)).flatten

/-- One trade row as `swollencandle::write` formats it: `time, price, amount`. -/
def trade_row {D : Type} (fmt : D → List Char) (t : trade D) : List Char :=
  join_row [format_u64 t.time, format_dbl fmt t.price, format_dbl fmt t.amount]

/-- Model of `swollencandle::write` for trades (no header row). -/
def write_trades {D : Type} (fmt : D → List Char) (trades : List (trade D)) : List Char :=
  (trades.map (trade_row fmt)).flatten

/-- Span-level parser used to instantiate the abstract double codec at `D = Nat`
in witnesses: the value of the digit prefix, if any. -/
def nat_span_value (s : List Char) : Option Nat :=
  match parseNat s with
  | none => none
  | some (v, _) => some v

/-! ### Aggregation engine (swollencandle.hpp) -/

/-- Model of `detail::check_integrity`: every candle after the first must carry
the first candle's period.  The local `last_time` variable of the C++ loop is
dead (assigned, never compared), so no time-ordering condition is checked. -/
def check_integrity {D : Type} : List (candle D) → Bool
  | [] => true
  | c :: rest => rest.all (fun e => e.period == c.period)

/-- Outcome of the candle upscaling routine.  `ub` marks the one execution path
on which the C++ evaluates `period_in_seconds % period` with `period == 0`,
which is undefined behaviour. -/
inductive CResult (D : Type) where
  | ub
  | err (e : error)
  | ok (candles : List (candle D))
deriving DecidableEq, Repr

/-- Accumulator of the aggregation loop inside `upscale` for candles. -/
structure AggState (D : Type) where
  count : Nat
  volume : D
  turnover : D
  high : D
  low : D

/-- One iteration of the inner `for (k)` loop of `upscale` for candles. -/
def agg_step {D : Type} [LinearOrderedField D] (st : AggState D) (e : candle D) : AggState D :=
  { count := st.count + e.count
    volume := st.volume + e.volume
    turnover := st.turnover + e.volume * e.vwap_price
    high := if e.high_price > st.high then e.high_price else st.high
    low := if e.low_price < st.low then e.low_price else st.low }

/-- The candle written to `result[i]` by `upscale` for candles, aggregating the
run of `fit` source candles starting at index `j` (`s` is the target period in
seconds). -/
def agg_at {D : Type} [LinearOrderedField D] [Inhabited D]
    (src : List (candle D)) (j fit s : Nat) : candle D :=
  let first := src.getD j default
  let st := (List.range (fit - 1)).foldl
    (fun st k => agg_step st (src.getD (j + 1 + k) default))
    ⟨first.count, first.volume, first.vwap_price * first.volume,
      first.high_price, first.low_price⟩
  { time := first.time / s * s
    period := s
    count := st.count
    volume := st.volume
    vwap_price := st.turnover / st.volume
    open_price := first.open_price
    high_price := st.high
    low_price := st.low
    close_price := (src.getD (j + fit - 1) default).close_price }

/-- Model of `swollencandle::upscale` for candles.  `result0` is the content the
caller's `result` vector holds on entry: for an empty source the C++ returns
without touching `result`; on every other successful path `result` is resized
and every slot assigned, so the outcome is independent of `result0`. -/
def upscale {D : Type} [LinearOrderedField D] [Inhabited D]
    (source result0 : List (candle D)) (up : upscale_period) : CResult D :=
  match source with
  | [] => .ok result0
  | c0 :: _ =>
    if check_integrity source = false then .err .non_constant_period
    else
      let s := seconds_in up
      if c0.period = 0 then .ub
      else if s % c0.period ≠ 0 then .err .invalid_upscale_period
      else if s = c0.period then .ok source
      else
        let fit := s / c0.period
        .ok ((List.range (source.length / fit)).map (fun i => agg_at source (i * fit) fit s))

/-- Insertion phase of `merge` over the first input `x`: `try_emplace` into the
time-keyed map, any already-present key failing with `duplicated_candle`. -/
def insert_x {D : Type} [DecidableEq D] :
    List (candle D) → List (Nat × candle D) → Except error (List (Nat × candle D))
  | [], m => .ok m
  | c :: rest, m =>
    match m.lookup c.time with
    | some _ => .error .duplicated_candle
    | none => insert_x rest ((c.time, c) :: m)

/-- Insertion phase of `merge` over the second input `y`: an already-present key
is tolerated when the stored candle equals the incoming one field for field and
rejected with `mismatched_candles` otherwise. -/
def insert_y {D : Type} [DecidableEq D] :
    List (candle D) → List (Nat × candle D) → Except error (List (Nat × candle D))
  | [], m => .ok m
  | c :: rest, m =>
    match m.lookup c.time with
    | some c2 => if c2 ≠ c then .error .mismatched_candles else insert_y rest m
    | none => insert_y rest ((c.time, c) :: m)

/-- Ascending insertion by time key (model of the final `std::sort` of `merge`;
keys are pairwise distinct, so any comparison sort yields this result). -/
def insert_sorted {D : Type} (p : Nat × candle D) :
    List (Nat × candle D) → List (Nat × candle D)
  | [] => [p]
  | q :: rest => if p.1 < q.1 then p :: q :: rest else q :: insert_sorted p rest

/-- Sort of the keyed entries by ascending time. -/
def sort_by_time {D : Type} : List (Nat × candle D) → List (Nat × candle D)
  | [] => []
  | p :: rest => insert_sorted p (sort_by_time rest)

/-- Model of `swollencandle::merge`.  The output vector `z` is resized and fully
overwritten on success, so it does not depend on its prior content. -/
def merge {D : Type} [DecidableEq D] (x y : List (candle D)) :
    Except error (List (candle D)) :=
  let core : Except error (List (candle D)) :=
    match insert_x x [] with
    | .error e => .error e
    | .ok m =>
      match insert_y y m with
      | .error e => .error e
      | .ok m2 => .ok ((sort_by_time m2).map (fun p => p.2))
  match x, y with
  | cx :: _, cy :: _ =>
    if cx.period ≠ cy.period then .error .merging_periods_mismatch else core
  | _, _ => core

/-- Fresh accumulator candle seeded from one trade (`upscale` for trades).  The
C++ accumulator's `vwap_price` is uninitialized until just before each push;
the `0` placed here is overwritten by `flush_acc` before the candle becomes
visible. -/
def new_acc {D : Type} [LinearOrderedField D] (t : trade D) (s : Nat) : candle D :=
  { time := t.time / s * s
    period := s
    count := 1
    volume := t.amount
    vwap_price := 0
    open_price := t.price
    high_price := t.price
    low_price := t.price
    close_price := t.price }

/-- In-bucket update of the accumulator candle by one trade, preserving the
`if / else if` shape of the source: when the high updates, the low test is
skipped. -/
def upd_acc {D : Type} [LinearOrderedField D] (acc : candle D) (t : trade D) : candle D :=
  if t.price > acc.high_price then
    { acc with
      count := acc.count + 1
      volume := acc.volume + t.amount
      high_price := t.price
      close_price := t.price }
  else if t.price < acc.low_price then
    { acc with
      count := acc.count + 1
      volume := acc.volume + t.amount
      low_price := t.price
      close_price := t.price }
  else
    { acc with
      count := acc.count + 1
      volume := acc.volume + t.amount
      close_price := t.price }

/-- Finalization before a push: `vwap_price = turnover / volume`. -/
def flush_acc {D : Type} [LinearOrderedField D] (acc : candle D) (turnover : D) : candle D :=
  { acc with vwap_price := turnover / acc.volume }

/-- Main loop of `upscale` for trades, carrying the accumulator candle, the
running turnover and the result vector being appended to. -/
def upscale_trades_loop {D : Type} [LinearOrderedField D] (s : Nat) :
    List (trade D) → candle D → D → List (candle D) → List (candle D)
  | [], acc, turnover, result => result ++ [flush_acc acc turnover]
  | t :: rest, acc, turnover, result =>
    if acc.time + s ≤ t.time then
      upscale_trades_loop s rest (new_acc t s) (t.amount * t.price)
        (result ++ [flush_acc acc turnover])
    else
      upscale_trades_loop s rest (upd_acc acc t) (turnover + t.price * t.amount) result

/-- Model of `swollencandle::upscale` for trades.  `result0` is the content the
caller's `result` vector holds on entry; the function never clears it and only
ever `push_back`s onto it. -/
def upscale_trades {D : Type} [LinearOrderedField D]
    (trades : List (trade D)) (result0 : List (candle D)) (up : upscale_period) :
    List (candle D) :=
  match trades with
  | [] => result0
  | t0 :: rest =>
    let s := seconds_in up
    upscale_trades_loop s rest (new_acc t0 s) (t0.amount * t0.price) result0

/-! ### Codec lemmas: scanning well-formed written fields -/

/-- A well-formed field span: nonempty, all characters inert for the scanner. -/
def GoodSpan (s : List Char) : Prop :=
  s ≠ [] ∧ ∀ c ∈ s, GoodChar c

/-! ### Well-formed values for the round trip -/

/-- The properties of the double codec that the round trip relies on, per value:
the written form fits the 32-byte slice, contains only inert characters, and is
recovered exactly by the span-level parser.  For the real
`std::to_chars`/`std::from_chars` pair on doubles all three hold for every
value (shortest round-trippable rendering, at most 24 characters, drawn from
`0-9 . - e + inf nan`). -/
def DOk {D : Type} (fmt : D → List Char) (parseD : List Char → Option D) (x : D) : Prop :=
  (fmt x).length ≤ 32 ∧ GoodSpan (fmt x) ∧ parseD (fmt x) = some x

/-- A candle the writer can represent exactly: integer fields inside the C++
type bounds, `time` and `count` moreover below `10^18` (the largest decimal
width fitting `writer::format_arg(uint64)`'s 18-byte slice), and six
codec-exact double fields. -/
def WfCandle {D : Type} (fmt : D → List Char) (parseD : List Char → Option D)
    (c : candle D) : Prop :=
  c.time < 10 ^ 18 ∧ c.period < 2 ^ 32 ∧ c.count < 10 ^ 18 ∧
  DOk fmt parseD c.volume ∧ DOk fmt parseD c.vwap_price ∧ DOk fmt parseD c.open_price ∧
  DOk fmt parseD c.high_price ∧ DOk fmt parseD c.low_price ∧ DOk fmt parseD c.close_price

/-- A trade the writer can represent exactly. -/
def WfTrade {D : Type} (fmt : D → List Char) (parseD : List Char → Option D)
    (t : trade D) : Prop :=
  t.time < 10 ^ 18 ∧ DOk fmt parseD t.price ∧ DOk fmt parseD t.amount

instance (s : List Char) : Decidable (GoodSpan s) := by
  unfold GoodSpan
  infer_instance

instance {D : Type} [DecidableEq D] (fmt : D → List Char) (parseD : List Char → Option D)
    (x : D) : Decidable (DOk fmt parseD x) := by
  unfold DOk
  infer_instance

instance {D : Type} [DecidableEq D] (fmt : D → List Char) (parseD : List Char → Option D)
    (c : candle D) : Decidable (WfCandle fmt parseD c) := by
  unfold WfCandle
  infer_instance

instance {D : Type} [DecidableEq D] (fmt : D → List Char) (parseD : List Char → Option D)
    (t : trade D) : Decidable (WfTrade fmt parseD t) := by
  unfold WfTrade
  infer_instance

/-! ### Header and row-iteration lemmas -/

/-- The bytes of the header row before its terminating newline: the nine column
names, each wrapped in double quotes by `writer::format_arg(char const (&)[N])`. -/
def header_body : List Char :=
  "\"time\",\"period\",\"trades\",\"volume\",\"vwap_price\",\"open_price\",\"high_price\",\"low_price\",\"close_price\"".data

/-- The header the claim asserts: the bare column names, unquoted. -/
def plain_header : List Char :=
  "time,period,trades,volume,vwap_price,open_price,high_price,low_price,close_price".data

/-- Decidable equality for `Except`, needed to evaluate merge outcomes. -/
instance {e a : Type} [DecidableEq e] [DecidableEq a] : DecidableEq (Except e a) := fun x y =>
  match x, y with
  | .ok u, .ok v =>
    if h : u = v then isTrue (h ▸ rfl) else isFalse (fun hh => by cases hh; exact h rfl)
  | .ok u, .error f => isFalse (fun hh => by cases hh)
  | .error g, .ok v => isFalse (fun hh => by cases hh)
  | .error g, .error f =>
    if h : g = f then isTrue (h ▸ rfl) else isFalse (fun hh => by cases hh; exact h rfl)

/-- A concrete rational candle used for merge examples. -/
def cQ1 : candle ℚ :=
  { time := 0, period := 60, count := 1, volume := 1, vwap_price := 1,
    open_price := 1, high_price := 1, low_price := 1, close_price := 1 }

/-- Same time as `cQ1`, different close price. -/
def cQ2 : candle ℚ :=
  { cQ1 with close_price := 2 }

/-- A candle with period zero: the one input class whose upscaling reaches the
unguarded `seconds_in(up) % period` with a zero divisor. -/
def cZero : candle ℚ :=
  { cQ1 with period := 0 }

/-- Two constant-period candles in descending time order. -/
def cDesc1 : candle ℚ :=
  { cQ1 with time := 120 }

/-- Second element of the descending pair. -/
def cDesc2 : candle ℚ :=
  { cQ1 with time := 60 }

/-- First of two period-30 candles for the C7 witness. -/
def cM1 : candle ℚ :=
  { time := 0, period := 30, count := 2, volume := 1, vwap_price := 10,
    open_price := 9, high_price := 11, low_price := 8, close_price := 10 }

/-- Second of two period-30 candles for the C7 witness. -/
def cM2 : candle ℚ :=
  { time := 30, period := 30, count := 3, volume := 3, vwap_price := 12,
    open_price := 10, high_price := 13, low_price := 9, close_price := 12 }

/-- A concrete trade: time 0, amount 1, price 2. -/
def tQ : trade ℚ :=
  { time := 0, amount := 1, price := 2 }

/-- The candle aggregated from `tQ` alone at minute period. -/
def cT : candle ℚ :=
  { time := 0, period := 60, count := 1, volume := 1, vwap_price := 2,
    open_price := 2, high_price := 2, low_price := 2, close_price := 2 }

/-- A round-trippable candle over the `Nat` instantiation of the double codec. -/
def cW : candle Nat :=
  { time := 60, period := 60, count := 1, volume := 5, vwap_price := 7,
    open_price := 1, high_price := 9, low_price := 1, close_price := 2 }

/-- The invariant-satisfying candle whose time needs 19 decimal digits. -/
def cBig : candle Nat :=
  { time := 10 ^ 18, period := 1, count := 1, volume := 0, vwap_price := 0,
    open_price := 0, high_price := 0, low_price := 0, close_price := 0 }

/-- A round-trippable trade over the `Nat` instantiation: time 1, amount 3,
price 2, written as the row `1,2,3`. -/
def tW : trade Nat :=
  { time := 1, amount := 3, price := 2 }

/-! ### Theorems -/

/-! ### Digit lemmas -/

theorem digitChar_isDigit {d : Nat} (h : d < 10) : isDigitChar (digitChar d) = true := by
  interval_cases d <;> decide

theorem digitVal_digitChar {d : Nat} (h : d < 10) : digitVal (digitChar d) = d := by
  interval_cases d <;> decide

theorem foldl_digits_append (ds : List Nat) (acc : Nat) :
    ds.foldl (fun a d => a * 10 + d) acc = acc * 10 ^ ds.length + bigVal ds := by
  induction ds generalizing acc with
  | nil => simp [bigVal]
  | cons d t ih =>
    simp only [List.foldl_cons, bigVal, List.length_cons]
    rw [ih (acc * 10 + d), ih (0 * 10 + d)]
    ring

theorem bigVal_reverse_digits (L : List Nat) :
    bigVal L.reverse = Nat.ofDigits 10 L := by
  induction L with
  | nil => simp [bigVal]
  | cons d t ih =>
    simp only [List.reverse_cons, bigVal, List.foldl_append, List.foldl_cons, List.foldl_nil,
      Nat.ofDigits_cons, Nat.cast_id]
    simp only [bigVal] at ih
    rw [ih]
    ring

theorem parseDigitsAcc_append (ds : List Nat) (rest : List Char) (acc : Nat)
    (hds : ∀ d ∈ ds, d < 10)
    (hrest : ∀ c, rest.head? = some c → isDigitChar c = false) :
    parseDigitsAcc acc (ds.map digitChar ++ rest) =
      (ds.foldl (fun a d => a * 10 + d) acc, rest) := by
  induction ds generalizing acc with
  | nil =>
    cases rest with
    | nil => simp [parseDigitsAcc]
    | cons c cs =>
      have hc := hrest c rfl
      simp [parseDigitsAcc, hc]
  | cons d t ih =>
    have hd : d < 10 := hds d (List.mem_cons_self d t)
    have ht : ∀ x ∈ t, x < 10 := fun x hx => hds x (List.mem_cons_of_mem d hx)
    simp only [List.map_cons, List.cons_append, parseDigitsAcc, digitChar_isDigit hd,
      if_true, digitVal_digitChar hd, List.foldl_cons]
    exact ih (acc * 10 + d) ht

theorem parseNat_digits (ds : List Nat) (rest : List Char)
    (hne : ds ≠ []) (hds : ∀ d ∈ ds, d < 10)
    (hrest : ∀ c, rest.head? = some c → isDigitChar c = false) :
    parseNat (ds.map digitChar ++ rest) = some (bigVal ds, rest) := by
  cases ds with
  | nil => exact absurd rfl hne
  | cons d t =>
    have hd : d < 10 := hds d (List.mem_cons_self d t)
    simp only [List.map_cons, List.cons_append, parseNat, digitChar_isDigit hd, if_true]
    have := parseDigitsAcc_append (d :: t) rest 0 hds hrest
    simp only [List.map_cons, List.cons_append] at this
    rw [this]
    rfl

theorem digitChar_good {d : Nat} (h : d < 10) : GoodChar (digitChar d) := by
  interval_cases d <;> decide

/-! ### Lemmas about `decimalChars` -/

theorem toDigitsAux_eq (fuel : Nat) :
    ∀ n acc, 0 < n → n < fuel →
      toDigitsAux fuel n acc = ((Nat.digits 10 n).reverse).map digitChar ++ acc := by
  induction fuel with
  | zero => intro n acc _ h; omega
  | succ fuel ih =>
    intro n acc hpos hlt
    by_cases h : n < 10
    · have hdig : Nat.digits 10 n = [n] := by
        rw [Nat.digits_def' (by norm_num : 1 < 10) hpos, Nat.mod_eq_of_lt h,
          Nat.div_eq_of_lt h, Nat.digits_zero]
      simp [toDigitsAux, h, hdig]
    · have h10 : 10 ≤ n := le_of_not_lt h
      have hq : 0 < n / 10 := Nat.div_pos h10 (by norm_num)
      have hqf : n / 10 < fuel := by
        have := Nat.div_lt_self hpos (by norm_num : 1 < 10)
        omega
      have hdig : Nat.digits 10 n = n % 10 :: Nat.digits 10 (n / 10) :=
        Nat.digits_def' (by norm_num : 1 < 10) hpos
      simp only [toDigitsAux, h, if_false]
      rw [ih (n / 10) (digitChar (n % 10) :: acc) hq hqf, hdig]
      simp [List.map_append]

theorem decimalChars_zero : decimalChars 0 = ['0'] := rfl

theorem decimalChars_eq {n : Nat} (hn : n ≠ 0) :
    decimalChars n = ((Nat.digits 10 n).reverse).map digitChar := by
  have := toDigitsAux_eq (n + 1) n [] (Nat.pos_of_ne_zero hn) (Nat.lt_succ_self n)
  simpa [decimalChars] using this

theorem decimalChars_ne_nil (n : Nat) : decimalChars n ≠ [] := by
  by_cases hn : n = 0
  · subst hn; decide
  · rw [decimalChars_eq hn]
    have : Nat.digits 10 n ≠ [] := Nat.digits_ne_nil_iff_ne_zero.mpr hn
    simp [this]

theorem decimalChars_good {n : Nat} : ∀ c ∈ decimalChars n, GoodChar c := by
  by_cases hn : n = 0
  · subst hn; decide
  · rw [decimalChars_eq hn]
    intro c hc
    rcases List.mem_map.mp hc with ⟨d, hd, rfl⟩
    exact digitChar_good (Nat.digits_lt_base (by norm_num) (List.mem_reverse.mp hd))

/-- Model of `std::from_chars` on the exact output of `std::to_chars`: the full
digit run is consumed and the original value recovered, for any continuation
that does not begin with a digit. -/
theorem parseNat_decimalChars (n : Nat) (rest : List Char)
    (hrest : ∀ c, rest.head? = some c → isDigitChar c = false) :
    parseNat (decimalChars n ++ rest) = some (n, rest) := by
  by_cases hn : n = 0
  · subst hn
    rw [decimalChars_zero]
    have h := parseNat_digits [0] rest (by simp) (by simp) hrest
    simpa [bigVal, digitChar] using h
  · rw [decimalChars_eq hn]
    have hlt : ∀ d ∈ (Nat.digits 10 n).reverse, d < 10 := fun d hd =>
      Nat.digits_lt_base (by norm_num) (List.mem_reverse.mp hd)
    have hne : (Nat.digits 10 n).reverse ≠ [] := by
      have : Nat.digits 10 n ≠ [] := Nat.digits_ne_nil_iff_ne_zero.mpr hn
      simpa using this
    rw [parseNat_digits _ rest hne hlt hrest, bigVal_reverse_digits, Nat.ofDigits_digits]

theorem decimalChars_length_le {n k : Nat} (hk : 1 ≤ k) (h : n < 10 ^ k) :
    (decimalChars n).length ≤ k := by
  by_cases hn : n = 0
  · subst hn; simpa [decimalChars_zero] using hk
  · rw [decimalChars_eq hn]
    rw [List.length_map, List.length_reverse,
      Nat.digits_len 10 n (by norm_num) hn]
    have := (Nat.lt_pow_iff_log_lt (by norm_num : 1 < 10) hn).mp h
    omega

theorem skip_whitespaces_of_head {l : List Char}
    (h : ∀ c, l.head? = some c → isWsChar c = false) :
    skip_whitespaces l = l := by
  cases l with
  | nil => rfl
  | cons c r => simp [skip_whitespaces, h c rfl]

theorem skip_line_through {l : List Char} (rest : List Char)
    (hn : '\n' ∉ l) (hz : '\x00' ∉ l) :
    skip_line (l ++ '\n' :: rest) = rest := by
  induction l with
  | nil => simp [skip_line]
  | cons c r ih =>
    have hc1 : c ≠ '\n' := fun h => hn (h ▸ List.mem_cons_self c r)
    have hc2 : c ≠ '\x00' := fun h => hz (h ▸ List.mem_cons_self c r)
    simp only [List.cons_append, skip_line, hc1, hc2, if_false]
    exact ih (fun h => hn (List.mem_cons_of_mem c h)) (fun h => hz (List.mem_cons_of_mem c h))

theorem scan_token_split {s r : List Char}
    (hs : ∀ c ∈ s, isTermChar c = false)
    (hr : ∀ c, r.head? = some c → isTermChar c = true) :
    scan_token_span (s ++ r) = s ∧ scan_token_rest (s ++ r) = r := by
  induction s with
  | nil =>
    cases r with
    | nil => exact ⟨rfl, rfl⟩
    | cons c t =>
      have := hr c rfl
      constructor
      · simp [scan_token_span, List.takeWhile, this]
      · simp [scan_token_rest, List.dropWhile, this]
  | cons c s' ih =>
    have hc : isTermChar c = false := hs c (List.mem_cons_self c s')
    have ih2 := ih (fun x hx => hs x (List.mem_cons_of_mem c hx))
    constructor
    · simpa [scan_token_span, List.takeWhile, hc] using ih2.1
    · simpa [scan_token_rest, List.dropWhile, hc] using ih2.2

/-- Parsing a well-formed bare field span followed by a terminator: the whole
span is scanned, `tp` converts it, the cursor stops on the terminator. -/
theorem parse_arg_bare {α : Type} {tp : List Char → Option α} {s r : List Char} {v : α}
    (hgood : GoodSpan s)
    (hr : ∀ c, r.head? = some c → isTermChar c = true)
    (htp : tp s = some v) :
    parse_arg tp (s ++ r) = some (v, r) := by
  obtain ⟨hne, hch⟩ := hgood
  cases s with
  | nil => exact absurd rfl hne
  | cons c0 s' =>
    have hg0 : GoodChar c0 := hch c0 (List.mem_cons_self c0 s')
    have hq : c0 ≠ '"' := hg0.2.2
    have hterm : ∀ c ∈ c0 :: s', isTermChar c = false := fun c hc => (hch c hc).1
    have hsplit := scan_token_split (s := c0 :: s') (r := r) hterm hr
    simp only [List.cons_append] at hsplit
    have hspan := hsplit.1
    have hrest := hsplit.2
    simp only [parse_arg, hq, if_false, List.cons_append, hspan, hrest]
    have : (c0 :: s').isEmpty = false := rfl
    simp [this, htp]

theorem expect_comma_cons {r : List Char}
    (h : ∀ c, r.head? = some c → isWsChar c = false) :
    expect_comma (',' :: r) = some r := by
  have h1 : skip_whitespaces (',' :: r) = ',' :: r :=
    skip_whitespaces_of_head (by intro c hc; cases hc; decide)
  simp [expect_comma, h1, skip_whitespaces_of_head h]

theorem expect_eol_newline (r : List Char) :
    expect_eol ('\n' :: r) = some ('\n' :: r) := by
  have h1 : skip_whitespaces ('\n' :: r) = '\n' :: r :=
    skip_whitespaces_of_head (by intro c hc; cases hc; decide)
  simp [expect_eol, h1]

/-- Conversion lemma: `try_parse_u64` recovers any value below `2^64` from its
minimal decimal form. -/
theorem try_parse_u64_decimal {n : Nat} (h : n < 2 ^ 64) :
    try_parse_u64 (decimalChars n) = some n := by
  have hp := parseNat_decimalChars n [] (by intro c hc; cases hc)
  simp only [List.append_nil] at hp
  have h2 : n < 18446744073709551616 := by
    have e : (2 : Nat) ^ 64 = 18446744073709551616 := by norm_num
    omega
  simp [try_parse_u64, hp, h2]

/-- Conversion lemma for `try_parse_u32`. -/
theorem try_parse_u32_decimal {n : Nat} (h : n < 2 ^ 32) :
    try_parse_u32 (decimalChars n) = some n := by
  have hp := parseNat_decimalChars n [] (by intro c hc; cases hc)
  simp only [List.append_nil] at hp
  have h2 : n < 4294967296 := by
    have e : (2 : Nat) ^ 32 = 4294967296 := by norm_num
    omega
  simp [try_parse_u32, hp, h2]

theorem goodSpan_decimalChars (n : Nat) : GoodSpan (decimalChars n) :=
  ⟨decimalChars_ne_nil n, decimalChars_good⟩

/-- Under the u64 bound forced by the 18-byte buffer, `format_u64` emits the
minimal decimal form. -/
theorem format_u64_eq {n : Nat} (h : n < 10 ^ 18) :
    format_u64 n = decimalChars n := by
  unfold format_u64
  rw [if_pos (decimalChars_length_le (by norm_num) h)]

/-- `format_u32` always emits the minimal decimal form for a uint32 value. -/
theorem format_u32_eq {n : Nat} (h : n < 2 ^ 32) :
    format_u32 n = decimalChars n := by
  unfold format_u32
  have : n < 10 ^ 10 := lt_of_lt_of_le h (by norm_num)
  rw [if_pos (decimalChars_length_le (by norm_num) this)]

theorem format_dbl_eq {D : Type} {fmt : D → List Char} {parseD : List Char → Option D}
    {x : D} (h : DOk fmt parseD x) : format_dbl fmt x = fmt x := by
  unfold format_dbl
  rw [if_pos h.1]

theorem head?_cons_pred {P : Char → Prop} {c0 : Char} {r : List Char} (h : P c0) :
    ∀ ch, (c0 :: r).head? = some ch → P ch := by
  intro ch hch
  simp only [List.head?_cons, Option.some.injEq] at hch
  exact hch ▸ h

theorem head_append_not_ws {s x : List Char} (h : GoodSpan s) :
    ∀ ch, (s ++ x).head? = some ch → isWsChar ch = false := by
  obtain ⟨hne, hch⟩ := h
  cases s with
  | nil => exact absurd rfl hne
  | cons c0 s' =>
    exact head?_cons_pred (P := fun ch => isWsChar ch = false)
      (hch c0 (List.mem_cons_self c0 s')).2.1

/-- One non-final field of a row: parse the span, stop on the comma, consume it. -/
theorem field_comma {α : Type} {tp : List Char → Option α} {s : List Char} {v : α}
    (r : List Char) (hs : GoodSpan s) (htp : tp s = some v)
    (hr : ∀ ch, r.head? = some ch → isWsChar ch = false) :
    parse_arg tp (s ++ ',' :: r) = some (v, ',' :: r) ∧ expect_comma (',' :: r) = some r :=
  ⟨parse_arg_bare hs (head?_cons_pred (P := fun ch => isTermChar ch = true) (by decide)) htp,
    expect_comma_cons hr⟩

/-- The final field of a row: parse the span, stop on the newline. -/
theorem field_eol {α : Type} {tp : List Char → Option α} {s : List Char} {v : α}
    (r : List Char) (hs : GoodSpan s) (htp : tp s = some v) :
    parse_arg tp (s ++ '\n' :: r) = some (v, '\n' :: r) ∧
      expect_eol ('\n' :: r) = some ('\n' :: r) :=
  ⟨parse_arg_bare hs (head?_cons_pred (P := fun ch => isTermChar ch = true) (by decide)) htp,
    expect_eol_newline r⟩

/-- Parsing one written candle row followed by anything: the row parser
reconstructs the candle and leaves the cursor on the terminating newline. -/
theorem parse_candle_row_append {D : Type} {fmt : D → List Char}
    {parseD : List Char → Option D} {c : candle D} (tail : List Char)
    (hc : WfCandle fmt parseD c) :
    parse_candle_row parseD (candle_row fmt c ++ tail) = some (c, '\n' :: tail) := by
  obtain ⟨ht, hp, hn, hv, hw, ho, hh, hl, hcl⟩ := hc
  have ht64 : c.time < 2 ^ 64 := lt_trans ht (by norm_num)
  have hn64 : c.count < 2 ^ 64 := lt_trans hn (by norm_num)
  have harg : candle_row fmt c ++ tail =
      decimalChars c.time ++ ',' :: (decimalChars c.period ++ ',' :: (decimalChars c.count ++
        ',' :: (fmt c.volume ++ ',' :: (fmt c.vwap_price ++ ',' :: (fmt c.open_price ++
        ',' :: (fmt c.high_price ++ ',' :: (fmt c.low_price ++ ',' :: (fmt c.close_price ++
        '\n' :: tail)))))))) := by
    simp [candle_row, join_row, format_u64_eq ht, format_u32_eq hp, format_u64_eq hn,
      format_dbl_eq hv, format_dbl_eq hw, format_dbl_eq ho, format_dbl_eq hh,
      format_dbl_eq hl, format_dbl_eq hcl, List.append_assoc]
  rw [harg]
  have s1 := field_comma
      (decimalChars c.period ++ ',' :: (decimalChars c.count ++
        ',' :: (fmt c.volume ++ ',' :: (fmt c.vwap_price ++ ',' :: (fmt c.open_price ++
        ',' :: (fmt c.high_price ++ ',' :: (fmt c.low_price ++ ',' :: (fmt c.close_price ++
        '\n' :: tail))))))))
      (goodSpan_decimalChars c.time) (try_parse_u64_decimal ht64)
      (head_append_not_ws (goodSpan_decimalChars c.period))
  have s2 := field_comma
      (decimalChars c.count ++
        ',' :: (fmt c.volume ++ ',' :: (fmt c.vwap_price ++ ',' :: (fmt c.open_price ++
        ',' :: (fmt c.high_price ++ ',' :: (fmt c.low_price ++ ',' :: (fmt c.close_price ++
        '\n' :: tail)))))))
      (goodSpan_decimalChars c.period) (try_parse_u32_decimal hp)
      (head_append_not_ws (goodSpan_decimalChars c.count))
  have s3 := field_comma
      (fmt c.volume ++ ',' :: (fmt c.vwap_price ++ ',' :: (fmt c.open_price ++
        ',' :: (fmt c.high_price ++ ',' :: (fmt c.low_price ++ ',' :: (fmt c.close_price ++
        '\n' :: tail))))))
      (goodSpan_decimalChars c.count) (try_parse_u64_decimal hn64)
      (head_append_not_ws hv.2.1)
  have s4 := field_comma
      (fmt c.vwap_price ++ ',' :: (fmt c.open_price ++
        ',' :: (fmt c.high_price ++ ',' :: (fmt c.low_price ++ ',' :: (fmt c.close_price ++
        '\n' :: tail)))))
      hv.2.1 hv.2.2 (head_append_not_ws hw.2.1)
  have s5 := field_comma
      (fmt c.open_price ++
        ',' :: (fmt c.high_price ++ ',' :: (fmt c.low_price ++ ',' :: (fmt c.close_price ++
        '\n' :: tail))))
      hw.2.1 hw.2.2 (head_append_not_ws ho.2.1)
  have s6 := field_comma
      (fmt c.high_price ++ ',' :: (fmt c.low_price ++ ',' :: (fmt c.close_price ++
        '\n' :: tail)))
      ho.2.1 ho.2.2 (head_append_not_ws hh.2.1)
  have s7 := field_comma
      (fmt c.low_price ++ ',' :: (fmt c.close_price ++ '\n' :: tail))
      hh.2.1 hh.2.2 (head_append_not_ws hl.2.1)
  have s8 := field_comma
      (fmt c.close_price ++ '\n' :: tail)
      hl.2.1 hl.2.2 (head_append_not_ws hcl.2.1)
  have s9 := field_eol tail hcl.2.1 hcl.2.2
  simp only [parse_candle_row, s1.1, s1.2, s2.1, s2.2, s3.1, s3.2, s4.1, s4.2,
    s5.1, s5.2, s6.1, s6.2, s7.1, s7.2, s8.1, s8.2, s9.1, s9.2]

theorem header_split : header_row = header_body ++ ['\n'] := by decide

theorem header_body_head_not_ws {x : List Char} :
    ∀ ch, (header_body ++ x).head? = some ch → isWsChar ch = false := by
  intro ch h
  have e : (header_body ++ x).head? = some '"' := rfl
  rw [e] at h
  injection h with h2
  rw [← h2]
  decide

theorem join_row_ne_nil (fs : List (List Char)) : join_row fs ≠ [] := by
  match fs with
  | [] => simp [join_row]
  | [f] => simp [join_row]
  | f :: g :: rest => simp [join_row]

theorem candle_rows_length_ge {D : Type} (fmt : D → List Char) (cs : List (candle D)) :
    cs.length ≤ ((cs.map (candle_row fmt)).flatten).length := by
  induction cs with
  | nil => simp
  | cons c cs' ih =>
    simp only [List.map_cons, List.flatten_cons, List.length_append, List.length_cons]
    have h1 : candle_row fmt c ≠ [] := join_row_ne_nil _
    have : 1 ≤ (candle_row fmt c).length := List.length_pos.mpr h1
    omega

/-- Any text starting with a well-formed candle row starts with a non-whitespace
character. -/
theorem candle_row_head_not_ws {D : Type} {fmt : D → List Char}
    {parseD : List Char → Option D} {c : candle D} (x : List Char)
    (hc : WfCandle fmt parseD c) :
    ∀ ch, (candle_row fmt c ++ x).head? = some ch → isWsChar ch = false := by
  have e : candle_row fmt c ++ x = decimalChars c.time ++
      ((',' :: join_row [format_u32 c.period, format_u64 c.count,
        format_dbl fmt c.volume, format_dbl fmt c.vwap_price, format_dbl fmt c.open_price,
        format_dbl fmt c.high_price, format_dbl fmt c.low_price,
        format_dbl fmt c.close_price]) ++ x) := by
    simp [candle_row, join_row, format_u64_eq hc.1, List.append_assoc]
  rw [e]
  exact head_append_not_ws (goodSpan_decimalChars c.time)

theorem candle_rows_head_not_ws {D : Type} {fmt : D → List Char}
    {parseD : List Char → Option D} {cs : List (candle D)} {tail : List Char}
    (hw : ∀ c ∈ cs, WfCandle fmt parseD c)
    (htail : ∀ ch, tail.head? = some ch → isWsChar ch = false) :
    ∀ ch, ((cs.map (candle_row fmt)).flatten ++ tail).head? = some ch →
      isWsChar ch = false := by
  cases cs with
  | nil => simpa using htail
  | cons c cs' =>
    simp only [List.map_cons, List.flatten_cons, List.append_assoc]
    exact candle_row_head_not_ws _ (hw c (List.mem_cons_self c cs'))

/-- The candle read loop walks one written row per iteration: rows for `cs`
followed by `tail` accumulate `cs` and continue on `tail` with one fuel unit
spent per row. -/
theorem read_candles_loop_rows {D : Type} {fmt : D → List Char}
    {parseD : List Char → Option D}
    (cs : List (candle D)) (tail : List Char) (acc : List (candle D)) (fuel : Nat)
    (hw : ∀ c ∈ cs, WfCandle fmt parseD c)
    (htail : ∀ ch, tail.head? = some ch → isWsChar ch = false)
    (hfuel : cs.length + 1 ≤ fuel) :
    read_candles_loop parseD fuel ((cs.map (candle_row fmt)).flatten ++ tail) acc =
      read_candles_loop parseD (fuel - cs.length) tail (acc ++ cs) := by
  induction cs generalizing acc fuel with
  | nil => simp
  | cons c cs' ih =>
    cases fuel with
    | zero => omega
    | succ f =>
      have hwc := hw c (List.mem_cons_self c cs')
      have hw' : ∀ x ∈ cs', WfCandle fmt parseD x := fun x hx => hw x (List.mem_cons_of_mem c hx)
      have hrow := parse_candle_row_append ((cs'.map (candle_row fmt)).flatten ++ tail) hwc
      have hne : (candle_row fmt c ++ ((cs'.map (candle_row fmt)).flatten ++ tail)).isEmpty
          = false := by
        have h1 : candle_row fmt c ≠ [] := join_row_ne_nil _
        cases hcr : candle_row fmt c with
        | nil => exact absurd hcr h1
        | cons a b => rfl
      have hskip : skip_whitespaces ((cs'.map (candle_row fmt)).flatten ++ tail) =
          (cs'.map (candle_row fmt)).flatten ++ tail :=
        skip_whitespaces_of_head (candle_rows_head_not_ws hw' htail)
      simp only [List.map_cons, List.flatten_cons, List.append_assoc, read_candles_loop,
        hne, Bool.false_eq_true, if_false, hrow, skip_line, if_pos, if_neg, hskip]
      rw [ih (acc ++ [c]) f hw' (by simp only [List.length_cons] at hfuel; omega)]
      have harith : f - cs'.length = f + 1 - (c :: cs').length := by
        simp only [List.length_cons]
        omega
      rw [harith]
      simp

theorem read_candles_loop_nil {D : Type} {parseD : List Char → Option D}
    (acc : List (candle D)) (fuel : Nat) (h : 1 ≤ fuel) :
    read_candles_loop parseD fuel [] acc = (none, acc) := by
  cases fuel with
  | zero => omega
  | succ f => simp [read_candles_loop]

/-- Master lemma: reading back `write_candles cs` with arbitrary extra bytes
appended runs the row loop over exactly the extra bytes with `cs` already
accumulated. -/
theorem read_candles_write_append {D : Type} {fmt : D → List Char}
    {parseD : List Char → Option D}
    (cs : List (candle D)) (tail : List Char)
    (hw : ∀ c ∈ cs, WfCandle fmt parseD c)
    (htail : ∀ ch, tail.head? = some ch → isWsChar ch = false) :
    ∃ fuel, tail.length + 1 ≤ fuel ∧
      read_candles parseD (write_candles fmt cs ++ tail) =
        read_candles_loop parseD fuel tail cs := by
  have e1 : write_candles fmt cs ++ tail =
      header_body ++ '\n' :: ((cs.map (candle_row fmt)).flatten ++ tail) := by
    unfold write_candles
    rw [header_split]
    simp [List.append_assoc]
  have hrows := candle_rows_length_ge fmt cs
  have e2 : skip_whitespaces (header_body ++ '\n' ::
      ((cs.map (candle_row fmt)).flatten ++ tail)) =
      header_body ++ '\n' :: ((cs.map (candle_row fmt)).flatten ++ tail) :=
    skip_whitespaces_of_head header_body_head_not_ws
  have hne : (header_body ++ '\n' ::
      ((cs.map (candle_row fmt)).flatten ++ tail)).isEmpty = false := rfl
  have e3 : skip_line (header_body ++ '\n' ::
      ((cs.map (candle_row fmt)).flatten ++ tail)) =
      (cs.map (candle_row fmt)).flatten ++ tail :=
    skip_line_through _ (by decide) (by decide)
  have e4 : skip_whitespaces ((cs.map (candle_row fmt)).flatten ++ tail) =
      (cs.map (candle_row fmt)).flatten ++ tail :=
    skip_whitespaces_of_head (candle_rows_head_not_ws hw htail)
  refine ⟨((cs.map (candle_row fmt)).flatten ++ tail).length + 1 - cs.length, ?_, ?_⟩
  · simp only [List.length_append]
    omega
  · unfold read_candles
    rw [e1]
    simp only [e2, hne, Bool.false_eq_true, if_false, e3, e4]
    have hl := read_candles_loop_rows cs tail []
      (((cs.map (candle_row fmt)).flatten ++ tail).length + 1) hw htail
      (by simp only [List.length_append]; omega)
    simpa using hl

/-! ### Trade-side analogues -/

/-- Parsing one written trade row followed by anything. -/
theorem parse_trade_row_append {D : Type} {fmt : D → List Char}
    {parseD : List Char → Option D} {t : trade D} (tail : List Char)
    (ht : WfTrade fmt parseD t) :
    parse_trade_row parseD (trade_row fmt t ++ tail) = some (t, '\n' :: tail) := by
  obtain ⟨htm, hpr, ham⟩ := ht
  have ht64 : t.time < 2 ^ 64 := lt_trans htm (by norm_num)
  have harg : trade_row fmt t ++ tail =
      decimalChars t.time ++ ',' :: (fmt t.price ++ ',' :: (fmt t.amount ++ '\n' :: tail)) := by
    simp [trade_row, join_row, format_u64_eq htm, format_dbl_eq hpr, format_dbl_eq ham,
      List.append_assoc]
  rw [harg]
  have s1 := field_comma (fmt t.price ++ ',' :: (fmt t.amount ++ '\n' :: tail))
      (goodSpan_decimalChars t.time) (try_parse_u64_decimal ht64)
      (head_append_not_ws hpr.2.1)
  have s2 := field_comma (fmt t.amount ++ '\n' :: tail)
      hpr.2.1 hpr.2.2 (head_append_not_ws ham.2.1)
  have s3 := field_eol tail ham.2.1 ham.2.2
  simp only [parse_trade_row, s1.1, s1.2, s2.1, s2.2, s3.1, s3.2]

theorem trade_rows_length_ge {D : Type} (fmt : D → List Char) (ts : List (trade D)) :
    ts.length ≤ ((ts.map (trade_row fmt)).flatten).length := by
  induction ts with
  | nil => simp
  | cons t ts' ih =>
    simp only [List.map_cons, List.flatten_cons, List.length_append, List.length_cons]
    have h1 : trade_row fmt t ≠ [] := join_row_ne_nil _
    have : 1 ≤ (trade_row fmt t).length := List.length_pos.mpr h1
    omega

theorem trade_row_head_not_ws {D : Type} {fmt : D → List Char}
    {parseD : List Char → Option D} {t : trade D} (x : List Char)
    (ht : WfTrade fmt parseD t) :
    ∀ ch, (trade_row fmt t ++ x).head? = some ch → isWsChar ch = false := by
  have e : trade_row fmt t ++ x = decimalChars t.time ++
      ((',' :: join_row [format_dbl fmt t.price, format_dbl fmt t.amount]) ++ x) := by
    simp [trade_row, join_row, format_u64_eq ht.1, List.append_assoc]
  rw [e]
  exact head_append_not_ws (goodSpan_decimalChars t.time)

theorem trade_rows_head_not_ws {D : Type} {fmt : D → List Char}
    {parseD : List Char → Option D} {ts : List (trade D)} {tail : List Char}
    (hw : ∀ t ∈ ts, WfTrade fmt parseD t)
    (htail : ∀ ch, tail.head? = some ch → isWsChar ch = false) :
    ∀ ch, ((ts.map (trade_row fmt)).flatten ++ tail).head? = some ch →
      isWsChar ch = false := by
  cases ts with
  | nil => simpa using htail
  | cons t ts' =>
    simp only [List.map_cons, List.flatten_cons, List.append_assoc]
    exact trade_row_head_not_ws _ (hw t (List.mem_cons_self t ts'))

theorem read_trades_loop_rows {D : Type} {fmt : D → List Char}
    {parseD : List Char → Option D}
    (ts : List (trade D)) (tail : List Char) (acc : List (trade D)) (fuel : Nat)
    (hw : ∀ t ∈ ts, WfTrade fmt parseD t)
    (htail : ∀ ch, tail.head? = some ch → isWsChar ch = false)
    (hfuel : ts.length + 1 ≤ fuel) :
    read_trades_loop parseD fuel ((ts.map (trade_row fmt)).flatten ++ tail) acc =
      read_trades_loop parseD (fuel - ts.length) tail (acc ++ ts) := by
  induction ts generalizing acc fuel with
  | nil => simp
  | cons t ts' ih =>
    cases fuel with
    | zero => omega
    | succ f =>
      have hwt := hw t (List.mem_cons_self t ts')
      have hw' : ∀ x ∈ ts', WfTrade fmt parseD x := fun x hx => hw x (List.mem_cons_of_mem t hx)
      have hrow := parse_trade_row_append ((ts'.map (trade_row fmt)).flatten ++ tail) hwt
      have hne : (trade_row fmt t ++ ((ts'.map (trade_row fmt)).flatten ++ tail)).isEmpty
          = false := by
        have h1 : trade_row fmt t ≠ [] := join_row_ne_nil _
        cases hcr : trade_row fmt t with
        | nil => exact absurd hcr h1
        | cons a b => rfl
      have hskip : skip_whitespaces ((ts'.map (trade_row fmt)).flatten ++ tail) =
          (ts'.map (trade_row fmt)).flatten ++ tail :=
        skip_whitespaces_of_head (trade_rows_head_not_ws hw' htail)
      simp only [List.map_cons, List.flatten_cons, List.append_assoc, read_trades_loop,
        hne, Bool.false_eq_true, if_false, hrow, skip_line, if_pos, if_neg, hskip]
      rw [ih (acc ++ [t]) f hw' (by simp only [List.length_cons] at hfuel; omega)]
      have harith : f - ts'.length = f + 1 - (t :: ts').length := by
        simp only [List.length_cons]
        omega
      rw [harith]
      simp

theorem read_trades_loop_nil {D : Type} {parseD : List Char → Option D}
    (acc : List (trade D)) (fuel : Nat) (h : 1 ≤ fuel) :
    read_trades_loop parseD fuel [] acc = (none, acc) := by
  cases fuel with
  | zero => omega
  | succ f => simp [read_trades_loop]

/-- Master lemma for trades: no header row to skip. -/
theorem read_trades_write_append {D : Type} {fmt : D → List Char}
    {parseD : List Char → Option D}
    (ts : List (trade D)) (tail : List Char)
    (hw : ∀ t ∈ ts, WfTrade fmt parseD t)
    (htail : ∀ ch, tail.head? = some ch → isWsChar ch = false) :
    ∃ fuel, tail.length + 1 ≤ fuel ∧
      read_trades parseD (write_trades fmt ts ++ tail) =
        read_trades_loop parseD fuel tail ts := by
  have hrows := trade_rows_length_ge fmt ts
  have e1 : skip_whitespaces ((ts.map (trade_row fmt)).flatten ++ tail) =
      (ts.map (trade_row fmt)).flatten ++ tail :=
    skip_whitespaces_of_head (trade_rows_head_not_ws hw htail)
  refine ⟨((ts.map (trade_row fmt)).flatten ++ tail).length + 1 - ts.length, ?_, ?_⟩
  · simp only [List.length_append]
    omega
  · unfold read_trades write_trades
    simp only [e1]
    have hl := read_trades_loop_rows ts tail []
      (((ts.map (trade_row fmt)).flatten ++ tail).length + 1) hw htail
      (by simp only [List.length_append]; omega)
    simpa using hl

/-! ### A row that fails to parse -/

/-- The two-byte row `x` + newline fails candle row parsing for every double
codec (the first field already fails in `try_parse_u64`). -/
theorem read_candles_loop_badrow {D : Type} (parseD : List Char → Option D)
    (acc : List (candle D)) (fuel : Nat) (h : 1 ≤ fuel) :
    read_candles_loop parseD fuel ['x', '\n'] acc =
      (some error.invalid_candle_fields, acc) := by
  cases fuel with
  | zero => omega
  | succ f =>
    have hx : parse_candle_row parseD ['x', '\n'] = none := by
      have h1 : parse_arg try_parse_u64 ['x', '\n'] = none := by decide
      simp [parse_candle_row, h1]
    simp [read_candles_loop, hx]

/-- The same row fails trade row parsing. -/
theorem read_trades_loop_badrow {D : Type} (parseD : List Char → Option D)
    (acc : List (trade D)) (fuel : Nat) (h : 1 ≤ fuel) :
    read_trades_loop parseD fuel ['x', '\n'] acc =
      (some error.invalid_trade_fields, acc) := by
  cases fuel with
  | zero => omega
  | succ f =>
    have hx : parse_trade_row parseD ['x', '\n'] = none := by
      have h1 : parse_arg try_parse_u64 ['x', '\n'] = none := by decide
      simp [parse_trade_row, h1]
    simp [read_trades_loop, hx]

/-! ### Merge lemmas -/

theorem insert_x_ok_nodup {D : Type} [DecidableEq D] :
    ∀ {x : List (candle D)} {m m' : List (Nat × candle D)},
      insert_x x m = .ok m' → (x.map candle.time).Nodup ∧
        ∀ c ∈ x, m.lookup c.time = none := by
  intro x
  induction x with
  | nil => intro m m' _; simp
  | cons c rest ih =>
    intro m m' h
    simp only [insert_x] at h
    cases hl : m.lookup c.time with
    | some c2 => rw [hl] at h; cases h
    | none =>
      rw [hl] at h
      obtain ⟨hnd, hlook⟩ := ih h
      have hne : ∀ c' ∈ rest, c'.time ≠ c.time := by
        intro c' hc'
        have := hlook c' hc'
        simp only [List.lookup_cons] at this
        intro heq
        rw [heq] at this
        simp at this
      refine ⟨?_, ?_⟩
      · simp only [List.map_cons, List.nodup_cons]
        exact ⟨fun hmem => by
          obtain ⟨c', hc', he⟩ := List.mem_map.mp hmem
          exact hne c' hc' he, hnd⟩
      · intro c' hc'
        rcases List.mem_cons.mp hc' with h1 | h1
        · rw [h1]; exact hl
        · have := hlook c' h1
          simp only [List.lookup_cons] at this
          cases hbe : (c'.time == c.time) with
          | true => exact absurd (beq_iff_eq.mp hbe) (hne c' h1)
          | false => rw [hbe] at this; exact this

theorem insert_x_error_eq {D : Type} [DecidableEq D] :
    ∀ {x : List (candle D)} {m : List (Nat × candle D)} {e : error},
      insert_x x m = .error e → e = error.duplicated_candle := by
  intro x
  induction x with
  | nil => intro m e h; cases h
  | cons c rest ih =>
    intro m e h
    simp only [insert_x] at h
    cases hl : m.lookup c.time with
    | some c2 => rw [hl] at h; cases h; rfl
    | none => rw [hl] at h; exact ih h

/-- A duplicated time inside the first merge input makes the first insertion
phase fail with `duplicated_candle`, whatever the map already holds. -/
theorem insert_x_dup {D : Type} [DecidableEq D] {x : List (candle D)}
    {m : List (Nat × candle D)} (hdup : ¬ (x.map candle.time).Nodup) :
    insert_x x m = .error error.duplicated_candle := by
  cases h : insert_x x m with
  | ok m' => exact absurd (insert_x_ok_nodup h).1 hdup
  | error e => rw [insert_x_error_eq h]

/-! ### Upscale lemmas -/

theorem seconds_in_pos (up : upscale_period) : 0 < seconds_in up := by
  cases up <;> decide

theorem check_integrity_iff {D : Type} (c0 : candle D) (rest : List (candle D)) :
    check_integrity (c0 :: rest) = true ↔ ∀ c ∈ c0 :: rest, c.period = c0.period := by
  simp only [check_integrity, List.all_eq_true, beq_iff_eq]
  constructor
  · intro h c hc
    rcases List.mem_cons.mp hc with h1 | h1
    · rw [h1]
    · exact h c h1
  · intro h e he
    exact h e (List.mem_cons_of_mem c0 he)

theorem slice_getD {D : Type} [Inhabited D] {l : List (candle D)} {j fit m : Nat}
    (hm : m < fit) (hj : j + fit ≤ l.length) :
    ((l.drop j).take fit).getD m default = l.getD (j + m) default := by
  rw [List.getD_eq_getElem?_getD, List.getD_eq_getElem?_getD, List.getElem?_take,
    if_pos hm, List.getElem?_drop]

theorem slice_length {D : Type} {l : List (candle D)} {j fit : Nat}
    (hj : j + fit ≤ l.length) :
    ((l.drop j).take fit).length = fit := by
  simp only [List.length_take, List.length_drop]
  omega

/-- The candle written at result slot `i` depends only on the `fit`-element
slice of the source it aggregates. -/
theorem agg_at_slice {D : Type} [LinearOrderedField D] [Inhabited D]
    {src : List (candle D)} {j fit s : Nat} (hfit : 0 < fit) (hj : j + fit ≤ src.length) :
    agg_at ((src.drop j).take fit) 0 fit s = agg_at src j fit s := by
  have e0 : ((src.drop j).take fit).getD 0 default = src.getD j default := by
    have := slice_getD (l := src) (j := j) hfit hj
    simpa using this
  have elast : ((src.drop j).take fit).getD (0 + fit - 1) default =
      src.getD (j + fit - 1) default := by
    have hm : fit - 1 < fit := by omega
    have h2 := slice_getD (l := src) (j := j) hm hj
    have e1 : (0:Nat) + fit - 1 = fit - 1 := by omega
    have e2 : j + (fit - 1) = j + fit - 1 := by omega
    rw [e1, h2, e2]
  have efold : ∀ st : AggState D, ∀ k ∈ List.range (fit - 1),
      agg_step st (((src.drop j).take fit).getD (0 + 1 + k) default) =
        agg_step st (src.getD (j + 1 + k) default) := by
    intro st k hk
    have hk' : k < fit - 1 := List.mem_range.mp hk
    have hm : 1 + k < fit := by omega
    have h2 := slice_getD (l := src) (j := j) hm hj
    have e1 : (0:Nat) + 1 + k = 1 + k := by omega
    have e2 : j + (1 + k) = j + 1 + k := by omega
    rw [e1, h2, e2]
  simp only [agg_at]
  rw [e0, elast]
  rw [List.foldl_ext _ _ _ efold]

/-- Branch computation of `upscale` on a nonempty, constant-period source with a
nonzero period properly dividing the target seconds. -/
theorem upscale_pos_branch {D : Type} [LinearOrderedField D] [Inhabited D]
    (c0 : candle D) (rest result0 : List (candle D)) (up : upscale_period)
    (hconst : check_integrity (c0 :: rest) = true)
    (hp : c0.period ≠ 0) (hdvd : seconds_in up % c0.period = 0)
    (hne : seconds_in up ≠ c0.period) :
    upscale (c0 :: rest) result0 up =
      .ok ((List.range ((c0 :: rest).length / (seconds_in up / c0.period))).map
        (fun i => agg_at (c0 :: rest) (i * (seconds_in up / c0.period))
          (seconds_in up / c0.period) (seconds_in up))) := by
  simp only [upscale]
  rw [if_neg (by simp [hconst]), if_neg hp, if_neg (by simp [hdvd]), if_neg hne]

theorem upscale_trades_loop_append {D : Type} [LinearOrderedField D] (s : Nat) :
    ∀ (rest : List (trade D)) (acc : candle D) (turnover : D) (res : List (candle D)),
      upscale_trades_loop s rest acc turnover res =
        res ++ upscale_trades_loop s rest acc turnover [] := by
  intro rest
  induction rest with
  | nil => intro acc turnover res; simp [upscale_trades_loop]
  | cons t r ih =>
    intro acc turnover res
    simp only [upscale_trades_loop]
    by_cases h : acc.time + s ≤ t.time
    · rw [if_pos h, if_pos h, ih _ _ (res ++ [flush_acc acc turnover]),
        ih _ _ ([] ++ [flush_acc acc turnover])]
      simp
    · rw [if_neg h, if_neg h, ih _ _ res]

/-! ### Claim theorems -/

theorem takeWhile_append_eq {p : Char → Bool} {s r : List Char}
    (hs : ∀ c ∈ s, p c = true) (hr : ∀ c, r.head? = some c → p c = false) :
    (s ++ r).takeWhile p = s := by
  induction s with
  | nil =>
    cases r with
    | nil => rfl
    | cons c t => simp [List.takeWhile, hr c rfl]
  | cons c s' ih =>
    simp [List.takeWhile, hs c (List.mem_cons_self c s'),
      ih (fun x hx => hs x (List.mem_cons_of_mem c hx))]

/-- C2 (amended): numeric parsing accepts exactly a valid in-range digit prefix.
For a span made of a nonempty digit run followed by any non-digit continuation,
`try_parse_u64` (resp. `try_parse_u32`) succeeds with the value of the digit
run whenever that value fits the integer type — the non-digit continuation is
ignored, not rejected; an empty span or a span not starting with a digit
fails, as does an out-of-range digit run. -/
theorem claim2_prefix_parse :
    (∀ (ds : List Nat) (rest : List Char), ds ≠ [] → (∀ d ∈ ds, d < 10) →
      (∀ c, rest.head? = some c → isDigitChar c = false) →
      try_parse_u64 (ds.map digitChar ++ rest) =
        if bigVal ds < 2 ^ 64 then some (bigVal ds) else none) ∧
    (∀ (ds : List Nat) (rest : List Char), ds ≠ [] → (∀ d ∈ ds, d < 10) →
      (∀ c, rest.head? = some c → isDigitChar c = false) →
      try_parse_u32 (ds.map digitChar ++ rest) =
        if bigVal ds < 2 ^ 32 then some (bigVal ds) else none) ∧
    try_parse_u64 [] = none ∧
    (∀ c cs, isDigitChar c = false → try_parse_u64 (c :: cs) = none) := by
  refine ⟨?_, ?_, rfl, ?_⟩
  · intro ds rest hne hds hrest
    simp only [try_parse_u64, parseNat_digits ds rest hne hds hrest]
  · intro ds rest hne hds hrest
    simp only [try_parse_u32, parseNat_digits ds rest hne hds hrest]
  · intro c cs h
    simp [try_parse_u64, parseNat, h]

/-- C2 witness: the digit run `12` followed by `abc` parses to `12`; the empty
span and a span starting with a non-digit fail. -/
theorem claim2_witness :
    try_parse_u64 (List.map digitChar [1, 2] ++ "abc".data) = some 12 ∧
    try_parse_u32 (List.map digitChar [1, 2] ++ "abc".data) = some 12 ∧
    try_parse_u64 [] = none ∧
    try_parse_u64 ('x' :: "1".data) = none := by
  refine ⟨?_, ?_, claim2_prefix_parse.2.2.1, claim2_prefix_parse.2.2.2 'x' "1".data (by decide)⟩
  · have h1 := claim2_prefix_parse.1 [1, 2] "abc".data (by decide) (by decide) (by decide)
    rw [h1]
    decide
  · have h2 := claim2_prefix_parse.2.1 [1, 2] "abc".data (by decide) (by decide) (by decide)
    rw [h2]
    decide

/-- C2 counterexample: the trade row `12abc,3,4` parses successfully — the
first (u64) field takes the value 12 from the numeric prefix of `12abc` — while
the claim demands that row parsing fail. -/
theorem claim2_counterexample :
    parse_trade_row nat_span_value ("12abc,3,4\n".data) =
      some (⟨12, 4, 3⟩, ['\n']) := by decide

/-- C3: with `uint64_digits = 18`, `writer::format_arg(uint64)` cannot represent
`10^18` (19 decimal digits): `std::to_chars` fails with `value_too_large` and
the writer keeps the 18 NUL fill bytes instead of the decimal form. -/
theorem claim3_format_u64_overflow :
    format_u64 (10 ^ 18) = List.replicate 18 '\x00' ∧
    format_u64 (10 ^ 18) ≠ decimalChars (10 ^ 18) ∧
    (decimalChars (10 ^ 18)).length = 19 := by
  decide

/-- C6 counterexample: the first row of `write_candles` output is not the
unquoted literal the claim states (every name is wrapped in double quotes by
`writer::format_arg(char const (&)[N])`). -/
theorem claim6_counterexample :
    (write_candles decimalChars ([] : List (candle Nat))).takeWhile (fun c => c != '\n') ≠
      plain_header := by
  decide

/-- C6 (amended): for every candle sequence, the first row of the bytes
produced by `write_candles` is exactly the quoted header
`"time","period","trades","volume","vwap_price","open_price","high_price","low_price","close_price"`
followed by a single newline. -/
theorem claim6_header_quoted {D : Type} (fmt : D → List Char) (cs : List (candle D)) :
    (write_candles fmt cs).take (header_body.length + 1) = header_body ++ ['\n'] ∧
    (write_candles fmt cs).takeWhile (fun c => c != '\n') = header_body := by
  have e1 : write_candles fmt cs =
      (header_body ++ ['\n']) ++ (cs.map (candle_row fmt)).flatten := by
    unfold write_candles
    rw [header_split]
  constructor
  · rw [e1]
    have e2 : header_body.length + 1 = (header_body ++ ['\n']).length := by
      simp
    rw [e2, List.take_left]
  · rw [e1]
    have e3 : (header_body ++ ['\n']) ++ (cs.map (candle_row fmt)).flatten =
        header_body ++ ('\n' :: (cs.map (candle_row fmt)).flatten) := by
      simp
    rw [e3]
    exact takeWhile_append_eq (by decide)
      (head?_cons_pred (P := fun ch => (ch != '\n') = false) (by decide))

/-- C6 witness: the quoted header at the empty candle list. -/
theorem claim6_witness :
    (write_candles decimalChars ([] : List (candle Nat))).take (header_body.length + 1) =
      header_body ++ ['\n'] :=
  (claim6_header_quoted decimalChars []).1

/-- C4 (amended): a duplicated time in the first merge input fails with
`duplicated_candle` (absent an earlier period mismatch); a duplicated time
inside the second input alone is not a `duplicated_candle` error — two
identical candles are silently deduplicated, and two differing candles fail
with `mismatched_candles`. -/
theorem claim4_duplicate_handling {D : Type} [DecidableEq D] :
    (∀ (x y : List (candle D)),
      (∀ cx cy, x.head? = some cx → y.head? = some cy → cx.period = cy.period) →
      ¬ (x.map candle.time).Nodup → merge x y = .error error.duplicated_candle) ∧
    (∀ c : candle D, merge [] [c, c] = .ok [c]) ∧
    (∀ c c' : candle D, c.time = c'.time → c ≠ c' →
      merge [] [c, c'] = .error error.mismatched_candles) := by
  refine ⟨?_, ?_, ?_⟩
  · intro x y hcomp hdup
    have hx : insert_x x ([] : List (Nat × candle D)) = .error error.duplicated_candle :=
      insert_x_dup hdup
    cases x with
    | nil => simp at hdup
    | cons cx xs =>
      cases y with
      | nil => simp [merge, hx]
      | cons cy ys =>
        have hper : cx.period = cy.period := hcomp cx cy rfl rfl
        simp [merge, hper, hx]
  · intro c
    simp [merge, insert_x, insert_y, List.lookup_cons, sort_by_time, insert_sorted]
  · intro c c' htime hne
    simp [merge, insert_x, insert_y, List.lookup_cons, htime, hne]

/-- C4 witness: concrete instances of the three behaviours. -/
theorem claim4_witness :
    merge [cQ1, cQ1] ([] : List (candle ℚ)) = .error error.duplicated_candle ∧
    merge ([] : List (candle ℚ)) [cQ1, cQ1] = .ok [cQ1] ∧
    merge ([] : List (candle ℚ)) [cQ1, cQ2] = .error error.mismatched_candles := by
  refine ⟨claim4_duplicate_handling.1 [cQ1, cQ1] []
      (fun cx cy h1 h2 => by cases h2) (by decide),
    claim4_duplicate_handling.2.1 cQ1,
    claim4_duplicate_handling.2.2 cQ1 cQ2 (by decide) (by decide)⟩

/-- C4 counterexample: the same time appearing twice within the second input
does not make merge fail with `DuplicatedCandle`: identical duplicates are
deduplicated and the merge succeeds. -/
theorem claim4_counterexample :
    merge ([] : List (candle ℚ)) [cQ1, cQ1] = .ok [cQ1] ∧
    merge ([] : List (candle ℚ)) [cQ1, cQ1] ≠ .error error.duplicated_candle := by
  constructor
  · decide
  · decide

/-- C10: for every non-empty source whose first candle has a nonzero period,
`upscale` for candles never divides or takes a remainder by zero — the
undefined-behaviour outcome is unreachable. -/
theorem claim10_no_div_by_zero {D : Type} [LinearOrderedField D] [Inhabited D]
    (source result0 : List (candle D)) (up : upscale_period) (c0 : candle D)
    (hhead : source.head? = some c0) (hp : c0.period ≠ 0) :
    upscale source result0 up ≠ CResult.ub := by
  cases source with
  | nil => simp at hhead
  | cons c rest =>
    have hc : c0 = c := by
      have h2 := hhead
      simp only [List.head?_cons, Option.some.injEq] at h2
      exact h2.symm
    subst hc
    simp only [upscale]
    by_cases h1 : check_integrity (c0 :: rest) = false
    · simp [h1]
    · rw [if_neg h1, if_neg hp]
      by_cases h2 : seconds_in up % c0.period ≠ 0
      · simp [h2]
      · rw [if_neg (by simpa using h2)]
        by_cases h3 : seconds_in up = c0.period
        · simp [h3]
        · rw [if_neg h3]
          simp

/-- C10 witness: a concrete one-candle source with period 60. -/
theorem claim10_witness :
    upscale [cQ1] ([] : List (candle ℚ)) upscale_period.minute ≠ CResult.ub :=
  claim10_no_div_by_zero [cQ1] [] upscale_period.minute cQ1 rfl (by decide)

/-- C9 (amended): for a non-empty source whose (first) period is nonzero,
`upscale` for candles fails with `non_constant_period` exactly when the source
mixes periods, fails with `invalid_upscale_period` exactly when the constant
source period does not divide the target seconds, and succeeds otherwise — no
time-ordering condition is ever checked.  (For a zero first period the claimed
equivalence breaks: the code reaches `% 0`, see the counterexample.) -/
theorem claim9_failure_characterization {D : Type} [LinearOrderedField D] [Inhabited D]
    (source result0 : List (candle D)) (up : upscale_period) (c0 : candle D)
    (hhead : source.head? = some c0) (hp : c0.period ≠ 0) :
    (upscale source result0 up = .err error.non_constant_period ↔
      ¬ ∀ c ∈ source, c.period = c0.period) ∧
    (upscale source result0 up = .err error.invalid_upscale_period ↔
      ((∀ c ∈ source, c.period = c0.period) ∧ ¬ c0.period ∣ seconds_in up)) ∧
    ((∀ c ∈ source, c.period = c0.period) ∧ c0.period ∣ seconds_in up →
      ∃ res, upscale source result0 up = .ok res) := by
  cases source with
  | nil => simp at hhead
  | cons c rest =>
    have hc : c0 = c := by
      have h2 := hhead
      simp only [List.head?_cons, Option.some.injEq] at h2
      exact h2.symm
    subst hc
    have hiff := check_integrity_iff c0 rest
    by_cases hI : check_integrity (c0 :: rest) = true
    · have hall : ∀ c ∈ c0 :: rest, c.period = c0.period := hiff.mp hI
      have hIf : ¬ check_integrity (c0 :: rest) = false := by simp [hI]
      by_cases hmod : seconds_in up % c0.period = 0
      · have hdvd : c0.period ∣ seconds_in up := Nat.dvd_of_mod_eq_zero hmod
        refine ⟨?_, ?_, ?_⟩
        · constructor
          · intro h
            exfalso
            simp only [upscale] at h
            rw [if_neg hIf, if_neg hp, if_neg (by simpa using hmod)] at h
            by_cases h3 : seconds_in up = c0.period
            · rw [if_pos h3] at h; cases h
            · rw [if_neg h3] at h; cases h
          · intro h; exact absurd hall h
        · constructor
          · intro h
            exfalso
            simp only [upscale] at h
            rw [if_neg hIf, if_neg hp, if_neg (by simpa using hmod)] at h
            by_cases h3 : seconds_in up = c0.period
            · rw [if_pos h3] at h; cases h
            · rw [if_neg h3] at h; cases h
          · intro h; exact absurd hdvd h.2
        · intro _
          simp only [upscale]
          rw [if_neg hIf, if_neg hp, if_neg (by simpa using hmod)]
          by_cases h3 : seconds_in up = c0.period
          · rw [if_pos h3]; exact ⟨_, rfl⟩
          · rw [if_neg h3]; exact ⟨_, rfl⟩
      · have hdvd : ¬ c0.period ∣ seconds_in up := by
          intro h
          exact hmod (Nat.mod_eq_zero_of_dvd h)
        have hres : upscale (c0 :: rest) result0 up = .err error.invalid_upscale_period := by
          simp only [upscale]
          rw [if_neg hIf, if_neg hp, if_pos (by simpa using hmod)]
        refine ⟨?_, ?_, ?_⟩
        · rw [hres]
          constructor
          · intro h; cases h
          · intro h; exact absurd hall h
        · rw [hres]
          constructor
          · intro _
            exact ⟨hall, hdvd⟩
          · intro _
            rfl
        · intro h; exact absurd h.2 hdvd
    · have hfalse : check_integrity (c0 :: rest) = false := by
        cases hv : check_integrity (c0 :: rest) with
        | true => exact absurd hv hI
        | false => rfl
      have hres : upscale (c0 :: rest) result0 up = .err error.non_constant_period := by
        simp only [upscale]
        rw [if_pos hfalse]
      have hnall : ¬ ∀ c ∈ c0 :: rest, c.period = c0.period := fun h => hI (hiff.mpr h)
      refine ⟨?_, ?_, ?_⟩
      · rw [hres]
        constructor
        · intro _
          exact hnall
        · intro _
          rfl
      · rw [hres]
        constructor
        · intro h; cases h
        · intro h; exact absurd h.1 hnall
      · intro h; exact absurd h.1 hnall

/-- C9 witness: a constant-period source in descending time order is accepted
without error (no ordering validation), via the success part of the
characterization. -/
theorem claim9_witness :
    (∃ res, upscale [cDesc1, cDesc2] ([] : List (candle ℚ)) upscale_period.minute = .ok res) ∧
    cDesc2.time < cDesc1.time := by
  refine ⟨(claim9_failure_characterization [cDesc1, cDesc2] [] upscale_period.minute cDesc1
    rfl (by decide)).2.2 ⟨by decide, by decide⟩, by decide⟩

/-- C9 counterexample: a constant-period source with period 0 does not fail
with `InvalidUpscalePeriod` as the claimed equivalence requires (60 is not a
multiple of 0) — the code instead evaluates `60 % 0`, which is undefined
behaviour. -/
theorem claim9_counterexample :
    upscale [cZero] ([] : List (candle ℚ)) upscale_period.minute = CResult.ub ∧
    upscale [cZero] ([] : List (candle ℚ)) upscale_period.minute ≠
      .err error.invalid_upscale_period ∧
    upscale [cZero] ([] : List (candle ℚ)) upscale_period.minute ≠
      .err error.non_constant_period := by
  refine ⟨by decide, by decide, by decide⟩

theorem getD_map_range {β : Type} [Inhabited β] (f : Nat → β) {n i : Nat} (h : i < n) :
    ((List.range n).map f).getD i default = f i := by
  rw [List.getD_eq_getElem?_getD, List.getElem?_map, List.getElem?_range h]
  rfl

/-- C7: on a non-empty constant-period source whose period properly divides the
target seconds, `upscale` for candles succeeds with exactly
`floor (length source / fit)` candles (`fit = target_seconds / period`), the
`i`-th aggregating precisely the `i`-th consecutive run of `fit` source
elements; a trailing remainder shorter than `fit` is silently dropped. -/
theorem claim7_grouping {D : Type} [LinearOrderedField D] [Inhabited D]
    (source result0 : List (candle D)) (up : upscale_period) (p : Nat)
    (hne : source ≠ [])
    (hconst : ∀ c ∈ source, c.period = p)
    (hp : 0 < p) (hdvd : p ∣ seconds_in up) (hproper : p ≠ seconds_in up) :
    ∃ res, upscale source result0 up = .ok res ∧
      res.length = source.length / (seconds_in up / p) ∧
      ∀ i, i < res.length →
        ((source.drop (i * (seconds_in up / p))).take (seconds_in up / p)).length =
          seconds_in up / p ∧
        res.getD i default =
          agg_at ((source.drop (i * (seconds_in up / p))).take (seconds_in up / p)) 0
            (seconds_in up / p) (seconds_in up) := by
  cases source with
  | nil => exact absurd rfl hne
  | cons c0 rest =>
    have hc0 : c0.period = p := hconst c0 (List.mem_cons_self c0 rest)
    subst hc0
    have hI : check_integrity (c0 :: rest) = true := (check_integrity_iff c0 rest).mpr hconst
    have hmod : seconds_in up % c0.period = 0 := Nat.mod_eq_zero_of_dvd hdvd
    have hne2 : seconds_in up ≠ c0.period := fun h => hproper h.symm
    have hpne : c0.period ≠ 0 := Nat.pos_iff_ne_zero.mp hp
    have hbranch := upscale_pos_branch c0 rest result0 up hI hpne hmod hne2
    refine ⟨_, hbranch, by simp, ?_⟩
    intro i hi
    have hi2 : i < (c0 :: rest).length / (seconds_in up / c0.period) := by
      simpa using hi
    have hfitpos : 0 < seconds_in up / c0.period :=
      Nat.div_pos (Nat.le_of_dvd (seconds_in_pos up) hdvd) hp
    have hbound : i * (seconds_in up / c0.period) + (seconds_in up / c0.period) ≤
        (c0 :: rest).length := by
      have h1 : i + 1 ≤ (c0 :: rest).length / (seconds_in up / c0.period) := hi2
      have h2 : (i + 1) * (seconds_in up / c0.period) ≤
          ((c0 :: rest).length / (seconds_in up / c0.period)) * (seconds_in up / c0.period) :=
        Nat.mul_le_mul_right _ h1
      have h3 := Nat.div_mul_le_self (c0 :: rest).length (seconds_in up / c0.period)
      calc i * (seconds_in up / c0.period) + (seconds_in up / c0.period)
          = (i + 1) * (seconds_in up / c0.period) := by ring
        _ ≤ ((c0 :: rest).length / (seconds_in up / c0.period)) *
            (seconds_in up / c0.period) := h2
        _ ≤ (c0 :: rest).length := h3
    refine ⟨slice_length hbound, ?_⟩
    rw [getD_map_range _ hi2]
    exact (agg_at_slice hfitpos hbound).symm

/-- C7 witness: two period-30 candles upscaled to a minute form one group. -/
theorem claim7_witness :
    ∃ res, upscale [cM1, cM2] ([] : List (candle ℚ)) upscale_period.minute = .ok res ∧
      res.length = [cM1, cM2].length / (seconds_in upscale_period.minute / 30) ∧
      ∀ i, i < res.length →
        (([cM1, cM2].drop (i * (seconds_in upscale_period.minute / 30))).take
          (seconds_in upscale_period.minute / 30)).length =
            seconds_in upscale_period.minute / 30 ∧
        res.getD i default =
          agg_at (([cM1, cM2].drop (i * (seconds_in upscale_period.minute / 30))).take
            (seconds_in upscale_period.minute / 30)) 0
            (seconds_in upscale_period.minute / 30) (seconds_in upscale_period.minute) :=
  claim7_grouping [cM1, cM2] [] upscale_period.minute 30 (by decide) (by decide)
    (by decide) (by decide) (by decide)

/-- C8 (amended): `upscale` for trades appends to the result vector it is
given: the caller-visible outcome is the prior content followed by the candles
aggregated from the trades; only a caller passing an empty vector gets exactly
the aggregate. -/
theorem claim8_appends {D : Type} [LinearOrderedField D]
    (trades : List (trade D)) (result0 : List (candle D)) (up : upscale_period) :
    upscale_trades trades result0 up = result0 ++ upscale_trades trades [] up := by
  cases trades with
  | nil => simp [upscale_trades]
  | cons t0 rest =>
    simp only [upscale_trades]
    exact upscale_trades_loop_append (seconds_in up) rest (new_acc t0 (seconds_in up))
      (t0.amount * t0.price) result0

/-- C8 witness: the append characterization at a concrete input. -/
theorem claim8_witness :
    upscale_trades [tQ] [cQ1] upscale_period.minute =
      [cQ1] ++ upscale_trades [tQ] [] upscale_period.minute :=
  claim8_appends [tQ] [cQ1] upscale_period.minute

/-- C8 counterexample: with a non-empty result vector passed in, the output of
`upscale` for trades also contains the stale prior candle, so it is not the
fresh aggregate of the given trades alone. -/
theorem claim8_counterexample :
    upscale_trades [tQ] [cQ1] upscale_period.minute = [cQ1, cT] ∧
    upscale_trades [tQ] [cQ1] upscale_period.minute ≠
      upscale_trades [tQ] [] upscale_period.minute := by
  have h1 : upscale_trades [tQ] [cQ1] upscale_period.minute = [cQ1, cT] := by
    simp only [upscale_trades, upscale_trades_loop, flush_acc, new_acc, seconds_in]
    norm_num [tQ, cQ1, cT]
  have h2 : upscale_trades [tQ] ([] : List (candle ℚ)) upscale_period.minute = [cT] := by
    simp only [upscale_trades, upscale_trades_loop, flush_acc, new_acc, seconds_in]
    norm_num [tQ, cT]
  refine ⟨h1, ?_⟩
  rw [h1, h2]
  simp

/-- C1 (amended): for every non-empty candle sequence with valid invariants
whose `time` and `count` fields are below `10^18` (the bound forced by the
18-byte `to_chars` slice of `writer::format_arg(uint64)`, cf. the
counterexample) and whose double fields the codec renders exactly,
`read_candles` of `write_candles` succeeds and returns the sequence
field-for-field. -/
theorem claim1_roundtrip {D : Type} [Zero D] [LE D] {fmt : D → List Char}
    {parseD : List Char → Option D} (cs : List (candle D))
    (hne : cs ≠ []) (hinv : ∀ c ∈ cs, candleInvariant c)
    (hw : ∀ c ∈ cs, WfCandle fmt parseD c) :
    read_candles parseD (write_candles fmt cs) = (none, cs) := by
  obtain ⟨fuel, hf, he⟩ := read_candles_write_append cs [] hw (fun ch h => by simp at h)
  rw [List.append_nil] at he
  rw [he]
  exact read_candles_loop_nil cs fuel (by omega)

/-- C1 witness: the round trip at a concrete candle with the decimal `Nat`
codec standing in for the double codec. -/
theorem claim1_witness :
    read_candles nat_span_value (write_candles decimalChars [cW]) = (none, [cW]) :=
  claim1_roundtrip [cW] (by decide) (by decide) (by decide)

/-- C1 counterexample: `cBig` satisfies the candle invariants, but writing it
puts 18 NUL bytes where its time should be (`to_chars` fails in the 18-byte
slice), so reading the bytes back fails with `invalid_candle_fields` instead of
returning the sequence. -/
theorem claim1_counterexample :
    candleInvariant cBig ∧
    read_candles nat_span_value (write_candles decimalChars [cBig]) =
      (some error.invalid_candle_fields, []) ∧
    read_candles nat_span_value (write_candles decimalChars [cBig]) ≠ (none, [cBig]) := by
  refine ⟨by decide, by decide, by decide⟩

/-- C5 (amended): when a row fails to parse, the whole read fails with the
schema's error kind (`invalid_candle_fields` / `invalid_trade_fields`) and no
sequence is returned as a value — but the caller-visible output vector does
retain the successfully parsed prefix of the preceding rows (the function
clears it on entry and pushes one candle per row until the failure). -/
theorem claim5_error_and_prefix {D : Type} {fmt : D → List Char}
    {parseD : List Char → Option D}
    (cs : List (candle D)) (ts : List (trade D))
    (hwc : ∀ c ∈ cs, WfCandle fmt parseD c)
    (hwt : ∀ t ∈ ts, WfTrade fmt parseD t) :
    read_candles parseD (write_candles fmt cs ++ ['x', '\n']) =
      (some error.invalid_candle_fields, cs) ∧
    read_trades parseD (write_trades fmt ts ++ ['x', '\n']) =
      (some error.invalid_trade_fields, ts) := by
  constructor
  · obtain ⟨fuel, hf, he⟩ := read_candles_write_append cs ['x', '\n'] hwc
      (head?_cons_pred (P := fun ch => isWsChar ch = false) (by decide))
    rw [he]
    exact read_candles_loop_badrow parseD cs fuel (by omega)
  · obtain ⟨fuel, hf, he⟩ := read_trades_write_append ts ['x', '\n'] hwt
      (head?_cons_pred (P := fun ch => isWsChar ch = false) (by decide))
    rw [he]
    exact read_trades_loop_badrow parseD ts fuel (by omega)

/-- C5 witness: one good row followed by a bad row, for both schemas. -/
theorem claim5_witness :
    read_candles nat_span_value (write_candles decimalChars [cW] ++ ['x', '\n']) =
      (some error.invalid_candle_fields, [cW]) ∧
    read_trades nat_span_value (write_trades decimalChars [tW] ++ ['x', '\n']) =
      (some error.invalid_trade_fields, [tW]) :=
  claim5_error_and_prefix [cW] [tW] (by decide) (by decide)

/-- C5 counterexample: reading `1,2,3` then the malformed row `x` fails, yet
the caller-visible trade vector holds the parsed prefix — it is not empty as
the claim asserts. -/
theorem claim5_counterexample :
    read_trades nat_span_value ("1,2,3\nx\n".data) =
      (some error.invalid_trade_fields, [⟨1, 3, 2⟩]) ∧
    ([(⟨1, 3, 2⟩ : trade Nat)] : List (trade Nat)) ≠ [] := by
  refine ⟨by decide, by decide⟩

/-! ### Fuel adequacy: a successful row parse strictly consumes input -/

theorem skip_whitespaces_length (l : List Char) :
    (skip_whitespaces l).length ≤ l.length := by
  induction l with
  | nil => simp [skip_whitespaces]
  | cons c r ih =>
    simp only [skip_whitespaces]
    by_cases h : isWsChar c
    · rw [if_pos h]
      exact le_trans ih (by simp)
    · rw [if_neg h]

theorem skip_line_length (l : List Char) : (skip_line l).length ≤ l.length := by
  induction l with
  | nil => simp [skip_line]
  | cons c r ih =>
    simp only [skip_line]
    by_cases h1 : c = '\n'
    · rw [if_pos h1]
      simp
    · rw [if_neg h1]
      by_cases h2 : c = '\x00'
      · rw [if_pos h2]
      · rw [if_neg h2]
        exact le_trans ih (by simp)

theorem scan_token_rest_lt {cur : List Char}
    (h : (scan_token_span cur).isEmpty = false) :
    (scan_token_rest cur).length < cur.length := by
  have e := List.takeWhile_append_dropWhile (p := fun c => !(isTermChar c)) (l := cur)
  have hl : (scan_token_span cur).length + (scan_token_rest cur).length = cur.length := by
    unfold scan_token_span scan_token_rest
    rw [← List.length_append, e]
  have hne : (scan_token_span cur).length ≠ 0 := by
    intro h0
    have h1 : scan_token_span cur = [] := List.length_eq_zero.mp h0
    rw [h1] at h
    simp at h
  omega

theorem scan_quoted_length :
    ∀ (n : Nat) (r : List Char), r.length ≤ n → ∀ {s rest : List Char},
      scan_quoted r = some (s, rest) → rest.length ≤ r.length := by
  intro n
  induction n with
  | zero =>
    intro r hr s rest h
    have : r = [] := List.length_eq_zero.mp (Nat.le_zero.mp hr)
    subst this
    cases h
  | succ n ih =>
    intro r hr s rest h
    cases r with
    | nil => cases h
    | cons c t =>
      cases t with
      | nil =>
        simp only [scan_quoted] at h
        by_cases h1 : c = '\n'
        · rw [if_pos h1] at h; cases h
        · rw [if_neg h1] at h
          by_cases h2 : c = '\x00'
          · rw [if_pos h2] at h; cases h
          · rw [if_neg h2] at h
            by_cases h3 : c = '"'
            · rw [if_pos h3] at h
              cases h
              exact le_rfl
            · rw [if_neg h3] at h; cases h
      | cons c2 t2 =>
        simp only [scan_quoted] at h
        by_cases h1 : c = '\n'
        · rw [if_pos h1] at h; cases h
        · rw [if_neg h1] at h
          by_cases h2 : c = '\x00'
          · rw [if_pos h2] at h; cases h
          · rw [if_neg h2] at h
            by_cases h3 : c = '"'
            · rw [if_pos h3] at h
              by_cases h4 : c2 = '"'
              · rw [if_pos h4] at h
                cases hq : scan_quoted t2 with
                | none => simp [hq] at h
                | some p =>
                  obtain ⟨s2, t3⟩ := p
                  simp only [hq] at h
                  cases h
                  have hrec := ih t2 (by simp only [List.length_cons] at hr; omega) hq
                  simp only [List.length_cons]
                  omega
              · rw [if_neg h4] at h
                cases h
                exact le_rfl
            · rw [if_neg h3] at h
              cases hq : scan_quoted (c2 :: t2) with
              | none => simp [hq] at h
              | some p =>
                obtain ⟨s2, t3⟩ := p
                simp only [hq] at h
                cases h
                have hrec := ih (c2 :: t2) (by simp only [List.length_cons] at hr ⊢; omega) hq
                simp only [List.length_cons] at hrec ⊢
                omega

theorem parse_arg_length {α : Type} {tp : List Char → Option α} {cur : List Char}
    {v : α} {rest : List Char} (h : parse_arg tp cur = some (v, rest)) :
    rest.length < cur.length := by
  cases cur with
  | nil => cases h
  | cons c r =>
    simp only [parse_arg] at h
    by_cases hc : c = '"'
    · rw [if_pos hc] at h
      cases hq : scan_quoted r with
      | none => simp [hq] at h
      | some p =>
        obtain ⟨span, rest0⟩ := p
        simp only [hq] at h
        cases htp : tp span with
        | none => simp [htp] at h
        | some v2 =>
          simp only [htp] at h
          cases h
          have h1 := scan_quoted_length r.length r le_rfl hq
          have h2 : (rest0.drop 1).length ≤ rest0.length := by
            simp [List.length_drop]
          simp only [List.length_cons]
          omega
    · rw [if_neg hc] at h
      cases hie : (scan_token_span (c :: r)).isEmpty with
      | true => simp [hie] at h
      | false =>
        simp only [hie, Bool.false_eq_true, if_false] at h
        cases htp : tp (scan_token_span (c :: r)) with
        | none => simp [htp] at h
        | some v2 =>
          simp only [htp] at h
          cases h
          exact scan_token_rest_lt hie

theorem expect_comma_length {cur r : List Char} (h : expect_comma cur = some r) :
    r.length ≤ cur.length := by
  simp only [expect_comma] at h
  cases hsw : skip_whitespaces cur with
  | nil => simp [hsw] at h
  | cons c0 rr =>
    simp only [hsw] at h
    by_cases hc : c0 = ','
    · rw [if_pos hc] at h
      cases h
      have ha := skip_whitespaces_length rr
      have hb := skip_whitespaces_length cur
      rw [hsw] at hb
      simp only [List.length_cons] at hb
      omega
    · rw [if_neg hc] at h
      cases h

theorem expect_eol_length {cur r : List Char} (h : expect_eol cur = some r) :
    r.length ≤ cur.length := by
  simp only [expect_eol] at h
  cases hsw : skip_whitespaces cur with
  | nil =>
    simp only [hsw] at h
    cases h
    simp
  | cons c0 rr =>
    simp only [hsw] at h
    have hb := skip_whitespaces_length cur
    rw [hsw] at hb
    by_cases h1 : c0 = '\n'
    · rw [if_pos h1] at h
      cases h
      exact hb
    · rw [if_neg h1] at h
      by_cases h2 : c0 = '\x00'
      · rw [if_pos h2] at h
        cases h
        exact hb
      · rw [if_neg h2] at h
        cases h

/-- A successful candle-row parse strictly consumes input (each field is
nonempty), so the read loop's fuel of `cursor length + 1` never runs out. -/
theorem parse_candle_row_length {D : Type} {parseD : List Char → Option D}
    {cur : List Char} {c : candle D} {rest : List Char}
    (h : parse_candle_row parseD cur = some (c, rest)) :
    rest.length < cur.length := by
  simp only [parse_candle_row] at h
  cases h1 : parse_arg try_parse_u64 cur with
  | none => simp [h1] at h
  | some p1 =>
    obtain ⟨v1, c1⟩ := p1
    simp only [h1] at h
    cases h2 : expect_comma c1 with
    | none => simp [h2] at h
    | some c2 =>
      simp only [h2] at h
      cases h3 : parse_arg try_parse_u32 c2 with
      | none => simp [h3] at h
      | some p3 =>
        obtain ⟨v3, c3⟩ := p3
        simp only [h3] at h
        cases h4 : expect_comma c3 with
        | none => simp [h4] at h
        | some c4 =>
          simp only [h4] at h
          cases h5 : parse_arg try_parse_u64 c4 with
          | none => simp [h5] at h
          | some p5 =>
            obtain ⟨v5, c5⟩ := p5
            simp only [h5] at h
            cases h6 : expect_comma c5 with
            | none => simp [h6] at h
            | some c6 =>
              simp only [h6] at h
              cases h7 : parse_arg parseD c6 with
              | none => simp [h7] at h
              | some p7 =>
                obtain ⟨v7, c7⟩ := p7
                simp only [h7] at h
                cases h8 : expect_comma c7 with
                | none => simp [h8] at h
                | some c8 =>
                  simp only [h8] at h
                  cases h9 : parse_arg parseD c8 with
                  | none => simp [h9] at h
                  | some p9 =>
                    obtain ⟨v9, c9⟩ := p9
                    simp only [h9] at h
                    cases h10 : expect_comma c9 with
                    | none => simp [h10] at h
                    | some c10 =>
                      simp only [h10] at h
                      cases h11 : parse_arg parseD c10 with
                      | none => simp [h11] at h
                      | some p11 =>
                        obtain ⟨v11, c11⟩ := p11
                        simp only [h11] at h
                        cases h12 : expect_comma c11 with
                        | none => simp [h12] at h
                        | some c12 =>
                          simp only [h12] at h
                          cases h13 : parse_arg parseD c12 with
                          | none => simp [h13] at h
                          | some p13 =>
                            obtain ⟨v13, c13⟩ := p13
                            simp only [h13] at h
                            cases h14 : expect_comma c13 with
                            | none => simp [h14] at h
                            | some c14 =>
                              simp only [h14] at h
                              cases h15 : parse_arg parseD c14 with
                              | none => simp [h15] at h
                              | some p15 =>
                                obtain ⟨v15, c15⟩ := p15
                                simp only [h15] at h
                                cases h16 : expect_comma c15 with
                                | none => simp [h16] at h
                                | some c16 =>
                                  simp only [h16] at h
                                  cases h17 : parse_arg parseD c16 with
                                  | none => simp [h17] at h
                                  | some p17 =>
                                    obtain ⟨v17, c17⟩ := p17
                                    simp only [h17] at h
                                    cases h18 : expect_eol c17 with
                                    | none => simp [h18] at h
                                    | some c18 =>
                                      simp only [h18] at h
                                      cases h
                                      have q1 := parse_arg_length h1
                                      have q2 := expect_comma_length h2
                                      have q3 := parse_arg_length h3
                                      have q4 := expect_comma_length h4
                                      have q5 := parse_arg_length h5
                                      have q6 := expect_comma_length h6
                                      have q7 := parse_arg_length h7
                                      have q8 := expect_comma_length h8
                                      have q9 := parse_arg_length h9
                                      have q10 := expect_comma_length h10
                                      have q11 := parse_arg_length h11
                                      have q12 := expect_comma_length h12
                                      have q13 := parse_arg_length h13
                                      have q14 := expect_comma_length h14
                                      have q15 := parse_arg_length h15
                                      have q16 := expect_comma_length h16
                                      have q17 := parse_arg_length h17
                                      have q18 := expect_eol_length h18
                                      omega

/-- A successful trade-row parse strictly consumes input. -/
theorem parse_trade_row_length {D : Type} {parseD : List Char → Option D}
    {cur : List Char} {t : trade D} {rest : List Char}
    (h : parse_trade_row parseD cur = some (t, rest)) :
    rest.length < cur.length := by
  simp only [parse_trade_row] at h
  cases h1 : parse_arg try_parse_u64 cur with
  | none => simp [h1] at h
  | some p1 =>
    obtain ⟨v1, c1⟩ := p1
    simp only [h1] at h
    cases h2 : expect_comma c1 with
    | none => simp [h2] at h
    | some c2 =>
      simp only [h2] at h
      cases h3 : parse_arg parseD c2 with
      | none => simp [h3] at h
      | some p3 =>
        obtain ⟨v3, c3⟩ := p3
        simp only [h3] at h
        cases h4 : expect_comma c3 with
        | none => simp [h4] at h
        | some c4 =>
          simp only [h4] at h
          cases h5 : parse_arg parseD c4 with
          | none => simp [h5] at h
          | some p5 =>
            obtain ⟨v5, c5⟩ := p5
            simp only [h5] at h
            cases h6 : expect_eol c5 with
            | none => simp [h6] at h
            | some c6 =>
              simp only [h6] at h
              cases h
              have q1 := parse_arg_length h1
              have q2 := expect_comma_length h2
              have q3 := parse_arg_length h3
              have q4 := expect_comma_length h4
              have q5 := parse_arg_length h5
              have q6 := expect_eol_length h6
              omega

/-- Fuel irrelevance for the candle read loop: any fuel of at least
`cursor length + 1` produces the same outcome, so the model's choice of
`cursor length + 1` at the call site is canonical and the `error.ok`
exhaustion marker is unreachable. -/
theorem read_candles_loop_fuel {D : Type} (parseD : List Char → Option D) :
    ∀ (f f' : Nat) (cur : List Char) (acc : List (candle D)),
      cur.length + 1 ≤ f → cur.length + 1 ≤ f' →
      read_candles_loop parseD f cur acc = read_candles_loop parseD f' cur acc := by
  intro f
  induction f with
  | zero => intro f' cur acc hf _; omega
  | succ a ih =>
    intro f' cur acc hf hf'
    cases f' with
    | zero => omega
    | succ b =>
      simp only [read_candles_loop]
      cases hcur : cur.isEmpty with
      | true => simp [hcur]
      | false =>
        simp only [hcur, Bool.false_eq_true, if_false]
        cases hp : parse_candle_row parseD cur with
        | none => rfl
        | some p =>
          obtain ⟨c, rest⟩ := p
          have hlen := parse_candle_row_length hp
          have h1 := skip_line_length rest
          have h2 := skip_whitespaces_length (skip_line rest)
          exact ih b (skip_whitespaces (skip_line rest)) (acc ++ [c]) (by omega) (by omega)

/-- Fuel irrelevance for the trade read loop. -/
theorem read_trades_loop_fuel {D : Type} (parseD : List Char → Option D) :
    ∀ (f f' : Nat) (cur : List Char) (acc : List (trade D)),
      cur.length + 1 ≤ f → cur.length + 1 ≤ f' →
      read_trades_loop parseD f cur acc = read_trades_loop parseD f' cur acc := by
  intro f
  induction f with
  | zero => intro f' cur acc hf _; omega
  | succ a ih =>
    intro f' cur acc hf hf'
    cases f' with
    | zero => omega
    | succ b =>
      simp only [read_trades_loop]
      cases hcur : cur.isEmpty with
      | true => simp [hcur]
      | false =>
        simp only [hcur, Bool.false_eq_true, if_false]
        cases hp : parse_trade_row parseD cur with
        | none => rfl
        | some p =>
          obtain ⟨t, rest⟩ := p
          have hlen := parse_trade_row_length hp
          have h1 := skip_line_length rest
          have h2 := skip_whitespaces_length (skip_line rest)
          exact ih b (skip_whitespaces (skip_line rest)) (acc ++ [t]) (by omega) (by omega)
